import Mathlib

/-!
Shallow embedding of the prerequisite-graph analysis engine of the
Prereq-College-Validation-Ai repository (`topic_graph.py`, `logic.py`,
`analysis_engine.py`), together with proofs about its behaviour.

Conventions of the embedding:

* A catalog source file is represented by its parsed top-level JSON value,
  assumed to be a list (`List RawRecord`); file IO (`FileNotFoundError`) and
  the non-list case (`ValueError`) are outside the scope of the claims here.
* A raw JSON course record is `RawRecord`: each field is optional, and the
  `prerequisites` field can additionally be a malformed non-sequence value
  (`PrereqField.nonList` stands for a non-iterable value such as a number;
  iterating it raises `TypeError` in Python).
* Python exceptions are modelled with `Except String`.
* `networkx.DiGraph` is modelled by `DiGraph`: node list in insertion order,
  a `name`-attribute association list, and an edge list in insertion order.
  `successors`/`predecessors` enumerate adjacency in edge-insertion order,
  as networkx does.
* Python's `set` of course ids is modelled by a duplicate-free `List String`
  together with its iteration order (the checks iterate over the set).
* `datetime.now()` is an external effect; the timestamp is a parameter.
-/

/-- A value stored in an `Issue.meta` payload (the engine only ever stores
course-id lists and numbers there). -/
inductive MetaVal where
  | nat (n : Nat)
  | strList (l : List String)
deriving DecidableEq

/-- `analysis_engine.Issue`. -/
structure Issue where
  code : String
  severity : String
  courses : List String
  message : String
  meta : List (String × MetaVal)
deriving DecidableEq

/-- A bottleneck candidate dict `{"id": ..., "out_degree": ...}` from
`analysis_engine.check_bottlenecks`. -/
structure Candidate where
  id : String
  out_degree : Nat
deriving DecidableEq

/-- The metrics dict assembled by `analysis_engine.analyze_catalog`
(fixed key set, so modelled as a structure). -/
structure Metrics where
  course_count : Nat
  total_nodes_in_graph : Nat
  num_cycles : Nat
  num_missing_prereqs : Nat
  num_isolated : Nat
  top_bottlenecks : List Candidate
  longest_chain_len : Nat
  longest_chain_path : List String
  longest_chain_blocked_by_cycles : Bool
deriving DecidableEq

/-- `analysis_engine.Report`. -/
structure Report where
  source_path : String
  generated_at : String
  metrics : Metrics
  issues : List Issue
deriving DecidableEq

/-- The configuration dict consumed by `analyze_catalog`; a `none` field is
an absent key, so `config.get(key, default)` is `Option.getD`. -/
structure Config where
  top_bottlenecks : Option Nat
  min_bottleneck : Option Nat
  long_chain_warn : Option Nat
deriving DecidableEq

/-- The `prerequisites` field of a raw record: absent, a list of id strings,
or a malformed non-sequence (non-iterable) value. -/
inductive PrereqField where
  | missing
  | list (l : List String)
  | nonList
deriving DecidableEq

/-- A raw catalog record as parsed from JSON; `none` fields are absent keys. -/
structure RawRecord where
  id : Option String
  name : Option String
  prerequisites : PrereqField
deriving DecidableEq

/-- A record normalized by `analysis_engine.load_catalog`. -/
structure NormRecord where
  id : String
  name : String
  prerequisites : List String
deriving DecidableEq

/-- `networkx.DiGraph` restricted to what the engine uses: string nodes kept
in insertion order, an optional `name` attribute per node, and directed
edges kept in insertion order. -/
structure DiGraph where
  nodes : List String
  names : List (String × String)
  edges : List (String × String)
deriving DecidableEq

namespace DiGraph

/-- The empty graph `nx.DiGraph()`. -/
def empty : DiGraph := { nodes := [], names := [], edges := [] }

/-- `g.add_node(v, name=name)`: inserts the node if new and upserts its
`name` attribute (last write wins). -/
def add_node (g : DiGraph) (v name : String) : DiGraph :=
  { g with
    nodes := if v ∈ g.nodes then g.nodes else g.nodes ++ [v]
    names := (g.names.filter (fun p => p.1 ≠ v)) ++ [(v, name)] }

/-- Adding a node as an edge endpoint only (no attributes), as
`add_edge` does for endpoints not yet present. -/
def touch_node (g : DiGraph) (v : String) : DiGraph :=
  { g with nodes := if v ∈ g.nodes then g.nodes else g.nodes ++ [v] }

/-- `g.add_edge(u, v)`: creates missing endpoints, ignores duplicate edges. -/
def add_edge (g : DiGraph) (u v : String) : DiGraph :=
  let g := (g.touch_node u).touch_node v
  { g with edges := if (u, v) ∈ g.edges then g.edges else g.edges ++ [(u, v)] }

/-- `g.successors(v)` in edge-insertion order. -/
def successors (g : DiGraph) (v : String) : List String :=
  (g.edges.filter (fun e => e.1 = v)).map (fun e => e.2)

/-- `g.predecessors(v)` in edge-insertion order. -/
def predecessors (g : DiGraph) (v : String) : List String :=
  (g.edges.filter (fun e => e.2 = v)).map (fun e => e.1)

/-- `g.out_degree(v)`. -/
def out_degree (g : DiGraph) (v : String) : Nat := (g.successors v).length

/-- `g.in_degree(v)`. -/
def in_degree (g : DiGraph) (v : String) : Nat := (g.predecessors v).length

/-- Well-formedness every `networkx` digraph satisfies: nodes are unique,
edges are unique, and edge endpoints are nodes. -/
def WF (g : DiGraph) : Prop :=
  g.nodes.Nodup ∧ g.edges.Nodup ∧ ∀ e ∈ g.edges, e.1 ∈ g.nodes ∧ e.2 ∈ g.nodes

end DiGraph

/-!  ## topic_graph.py  -/

/-- `topic_graph.load_course_graph`, the repository's only graph builder.
It reads the RAW records: `course["id"]` and `course["name"]` raise
`KeyError` when the key is absent, and iterating a non-sequence
`prerequisites` value raises `TypeError`; edges are added
prerequisite → course.  Note that `analysis_engine` tries
`from topic_graph import build_course_graph, detect_cycles`, but no name
`build_course_graph` exists here, so that import raises `ImportError` —
swallowed by the surrounding `except ImportError: pass`, leaving both names
unbound in `analysis_engine` (see `build_graph_from_catalog` and
`check_cycles` below). -/
def load_course_graph (data : List RawRecord) : Except String DiGraph :=
  data.foldlM
    (fun g course => do
      let course_id ← match course.id with
        | some i => Except.ok i
        | none => Except.error "KeyError: id"
      let cname ← match course.name with
        | some s => Except.ok s
        | none => Except.error "KeyError: name"
      let g := g.add_node course_id cname
      let prereqs ← match course.prerequisites with
        | .list l => Except.ok l
        | .missing => Except.ok []
        | .nonList => Except.error "TypeError: prerequisites is not iterable"
      Except.ok (prereqs.foldl (fun g p => g.add_edge p course_id) g))
    DiGraph.empty

/-- Whether `(u, v)` is an edge of `g`. -/
def hasEdgeB (g : DiGraph) (u v : String) : Bool := decide ((u, v) ∈ g.edges)

/-- Whether consecutive elements of `c` are all linked by edges of `g`. -/
def chainArrowsB (g : DiGraph) : List String → Bool
  | a :: b :: rest => hasEdgeB g a b && chainArrowsB g (b :: rest)
  | _ => true

/-- Whether `c` lists the vertices of a cycle of `g` in order (consecutive
edges plus the closing edge from the last vertex back to the first). -/
def isCycleListB (g : DiGraph) : List String → Bool
  | [] => false
  | a :: rest =>
    chainArrowsB g (a :: rest) &&
      (match (a :: rest).getLast? with
       | some x => hasEdgeB g x a
       | none => false)

/-- All insertions of `a` into `l`, one per position. -/
def insertsOf (a : String) : List String → List (List String)
  | [] => [[a]]
  | b :: t => (a :: b :: t) :: (insertsOf a t).map (fun l => b :: l)

/-- All permutations of `l` (a structural implementation, since
`List.permutations` does not reduce inside the kernel). -/
def permsOf : List String → List (List String)
  | [] => [[]]
  | a :: t => (permsOf t).flatMap (insertsOf a)

/-- `nx.simple_cycles(g)` (used by `topic_graph.detect_cycles`): the list of
all elementary cycles of `g`, each reported exactly once.  networkx uses
Johnson's algorithm; the embedding enumerates each cycle once in a canonical
rotation (starting from its earliest vertex in node-insertion order), which
differs from Johnson's output only in list order and rotation — an artifact
the spec does not rely on. -/
def simple_cycles (g : DiGraph) : List (List String) :=
  g.nodes.sublists.flatMap (fun s =>
    match s with
    | [] => []
    | a :: rest =>
      ((permsOf rest).map (fun p => a :: p)).filter (fun c => isCycleListB g c))

/-- `topic_graph.detect_cycles`. -/
def detect_cycles (g : DiGraph) : List (List String) := simple_cycles g

/-- `topic_graph.get_unlocked_courses`: nodes not yet completed all of whose
direct predecessors are completed. -/
def get_unlocked_courses (g : DiGraph) (completed_courses : List String) : List String :=
  g.nodes.filter (fun node =>
    decide (node ∉ completed_courses) &&
      (g.predecessors node).all (fun prereq => decide (prereq ∈ completed_courses)))

/-!  ## logic.py

`get_prereq_chain` recursively collects all prerequisites of a topic and then
the topic itself, sharing one mutable `visited` set across the entire descent.
The embedding threads the visited set explicitly (Python mutates it in
place), and represents each returned node-attribute dict by its `id` (the
dict is the node's attributes plus the injected `id`; all reasoning is about
ids).  Python's recursion carries no fuel; the `fuel` argument is an
artifact of the embedding, and `gpc_fuel_stable` below shows the result is
fuel-independent once `fuel` exceeds the number of unvisited nodes, which is
exactly the termination guarantee of the visited set. -/

/-- The `for pre_id in graph.predecessors(topic_id)` loop of
`get_prereq_chain`: extends the chain with each predecessor's recursive
result (`f` is the recursive call one fuel level down), threading the shared
visited set. -/
def gpcFoldAux (f : String → List String → List String × List String) :
    List String → List String → List String × List String
  | [], visited => ([], visited)
  | p :: ps, visited =>
    let r1 := f p visited
    let r2 := gpcFoldAux f ps r1.2
    (r1.1 ++ r2.1, r2.2)

/-- One call of `logic.get_prereq_chain(graph, topic_id, visited)`: returns
the chain together with the updated visited set. -/
def gpc (g : DiGraph) : Nat → String → List String → List String × List String
  | 0, _, visited => ([], visited)
  | fuel + 1, topic, visited =>
    if topic ∈ visited then ([], visited)
    else
      let visited := visited ++ [topic]
      if topic ∈ g.nodes then
        let res := gpcFoldAux (gpc g fuel) (g.predecessors topic) visited
        if topic ∈ res.1 then res else (res.1 ++ [topic], res.2)
      else ([], visited)

/-- The predecessor loop at a given fuel level. -/
def gpcFold (g : DiGraph) (fuel : Nat) : List String → List String → List String × List String :=
  gpcFoldAux (gpc g fuel)

/-- `logic.get_prereq_chain(graph, topic_id)` (the public entry point, called
with `visited = None`).  A fresh visited set can mark at most every node plus
the initial topic, so `g.nodes.length + 1` levels of fuel are never
exhausted (`gpc_fuel_stable`). -/
def get_prereq_chain (g : DiGraph) (topic_id : String) : List String :=
  (gpc g (g.nodes.length + 1) topic_id []).1

/-!  ## analysis_engine.py  -/

/-- `analysis_engine.load_catalog` applied to the parsed list: skips records
without an `id`, defaults a missing `name` to `"Unknown"`, and replaces a
non-sequence `prerequisites` value by `[]`. -/
def load_catalog (data : List RawRecord) : List NormRecord :=
  data.filterMap (fun item =>
    match item.id with
    | none => none
    | some i =>
      let prereqs := match item.prerequisites with
        | .list l => l
        | _ => []
      some { id := i, name := item.name.getD "Unknown", prerequisites := prereqs })

/-- `analysis_engine.check_cycles`: its body starts with
`cycles = detect_cycles(graph)`, but `detect_cycles` is unbound in
`analysis_engine` — the `from topic_graph import build_course_graph,
detect_cycles` at the top of the module raises `ImportError` at the first
name (`topic_graph` has no `build_course_graph`), before `detect_cycles` is
bound, and the `except ImportError: pass` swallows the failure.  Every call
therefore raises `NameError` before any issue is built (the embedding drops
the quotes Python puts around the offending name). -/
def check_cycles (graph : DiGraph) : Except String (List Issue) :=
  Except.error "NameError: name detect_cycles is not defined"

/-- `analysis_engine.check_missing_prereqs`: one high-severity issue for
every graph node that is not a declared ("real") course id. -/
def check_missing_prereqs (g : DiGraph) (real_course_ids : List String) : List Issue :=
  g.nodes.filterMap (fun node =>
    if node ∈ real_course_ids then none
    else
      let referenced_by := g.successors node
      let joined := String.intercalate ", " referenced_by
      some
        { code := "missing_prereq"
          severity := "high"
          courses := [node]
          message := s!"Course {node} is required by {joined} but not defined in catalog."
          meta := [("referenced_by", MetaVal.strList referenced_by)] })

/-- `analysis_engine.check_isolated`: one low-severity issue for every real
course with no incident edges. -/
def check_isolated (g : DiGraph) (real_course_ids : List String) : List Issue :=
  real_course_ids.filterMap (fun node =>
    if node ∈ g.nodes then
      if g.in_degree node = 0 ∧ g.out_degree node = 0 then
        some
          { code := "isolated_course"
            severity := "low"
            courses := [node]
            message := s!"Course {node} has no prerequisites and is not a prerequisite for any other course."
            meta := [] }
      else none
    else none)

/-- The candidate list built by `check_bottlenecks` before sorting: real ids
present in the graph whose out-degree reaches the threshold, in discovery
(iteration) order. -/
def bottleneck_candidates (g : DiGraph) (real_course_ids : List String)
    (min_out_degree : Nat) : List Candidate :=
  real_course_ids.filterMap (fun node =>
    if node ∈ g.nodes then
      let out_d := g.out_degree node
      if min_out_degree ≤ out_d then some ⟨node, out_d⟩ else none
    else none)

/-- The comparison used to model `candidates.sort(key=lambda x: x["out_degree"],
reverse=True)`: Python's sort is stable, which is extensionally the same as
sorting index-annotated entries by the strict total order (out-degree
descending, original position ascending). -/
def candLe (a b : Nat × Candidate) : Prop :=
  b.2.out_degree < a.2.out_degree ∨
    (a.2.out_degree = b.2.out_degree ∧ a.1 ≤ b.1)

instance : DecidableRel candLe := fun a b => by
  unfold candLe; infer_instance

instance : IsTotal (Nat × Candidate) candLe :=
  ⟨fun a b => by unfold candLe; omega⟩

instance : IsTrans (Nat × Candidate) candLe :=
  ⟨fun a b c => by unfold candLe; omega⟩

/-- The candidate list after the stable descending sort. -/
def rank_candidates (cands : List Candidate) : List Candidate :=
  ((cands.enum).insertionSort candLe).map (fun p => p.2)

/-- The `bottleneck` issue emitted for a ranked candidate. -/
def mkBottleneckIssue (bot : Candidate) : Issue :=
  let d := bot.out_degree
  { code := "bottleneck"
    severity := "medium"
    courses := [bot.id]
    message := s!"Course {bot.id} is a prerequisite for {d} courses."
    meta := [("out_degree", MetaVal.nat bot.out_degree)] }

/-- `analysis_engine.check_bottlenecks`: rank the qualifying candidates by
out-degree (descending, stable) and emit the top `top_k` as issues; the same
top-`top_k` slice is returned as the second component.  In the source
`top_k` defaults to 5 and `min_out_degree` to 3; `analyze_catalog` passes
both explicitly. -/
def check_bottlenecks (g : DiGraph) (real_course_ids : List String)
    (top_k : Nat) (min_out_degree : Nat) : List Issue × List Candidate :=
  let candidates := rank_candidates (bottleneck_candidates g real_course_ids min_out_degree)
  let top_bottlenecks := candidates.take top_k
  (top_bottlenecks.map mkBottleneckIssue, top_bottlenecks)

/-- One generation of Kahn's algorithm: the not-yet-emitted nodes all of
whose predecessors have been emitted. -/
def nextGeneration (g : DiGraph) (processed remaining : List String) : List String :=
  remaining.filter (fun v => (g.predecessors v).all (fun u => decide (u ∈ processed)))

/-- The generation loop of `nx.topological_sort` (Kahn's algorithm by
generations, as in `networkx.topological_generations`): repeatedly emit a
full generation until none is left; returns the emission order and the
leftover nodes (nonempty exactly when the graph has a cycle, in which case
networkx raises `NetworkXUnfeasible`).  networkx takes nodes within a
generation in counter-decrement discovery order; the embedding takes them in
node-insertion order — both are valid Kahn orders, and the spec (§9) treats
the tie-break as an algorithm artifact. -/
def topoLoop (g : DiGraph) (fuel : Nat) (processed remaining : List String) :
    List String × List String :=
  match fuel with
  | 0 => (processed, remaining)
  | fuel' + 1 =>
    let gen := nextGeneration g processed remaining
    if gen.isEmpty then (processed, remaining)
    else topoLoop g fuel' (processed ++ gen) (remaining.filter (fun v => decide (v ∉ gen)))

/-- `nx.topological_sort(g)` run to completion: the emitted order plus the
leftover (cyclic) nodes. -/
def topological_order (g : DiGraph) : List String × List String :=
  topoLoop g (g.nodes.length + 1) [] g.nodes

/-- `nx.is_directed_acyclic_graph(g)`: the topological sort consumes every
node (networkx: consuming the generator raises `NetworkXUnfeasible` iff some
nodes are left over). -/
def is_directed_acyclic_graph (g : DiGraph) : Bool :=
  (topological_order g).2.isEmpty

/-- Python's `max(xs, key=lambda x: x[0])` on a nonempty list of
(value, node) pairs: the first pair with maximal value. -/
def maxByVal (x : Nat × String) (xs : List (Nat × String)) : Nat × String :=
  xs.foldl (fun best y => if best.1 < y.1 then y else best) x

/-- `dist[u]` lookup in the longest-path DP table. -/
def lookupDist (dist : List (String × (Nat × String))) (u : String) :
    Option (Nat × String) :=
  (dist.find? (fun p => decide (p.1 = u))).map (fun p => p.2)

/-- One step of the DP of `nx.dag_longest_path` at node `v`: set `dist[v]`
to `(1 + max over predecessors, best predecessor)` (all weights are the
default 1), or `(0, v)` for a source.  A predecessor absent from `dist`
raises `KeyError` in Python (impossible over a topological order, proved
below). -/
def distStep (g : DiGraph) (dist : List (String × (Nat × String))) (v : String) :
    Except String (List (String × (Nat × String))) := do
  let us ← (g.predecessors v).mapM (fun u =>
    match lookupDist dist u with
    | some du => Except.ok (du.1 + 1, u)
    | none => Except.error "KeyError: predecessor not in dist")
  let maxu := match us with
    | [] => (0, v)
    | x :: xs => maxByVal x xs
  Except.ok (dist ++ [(v, maxu)])

/-- The DP fold of `nx.dag_longest_path` over the topological order. -/
def distFold (g : DiGraph) (topo : List String) :
    Except String (List (String × (Nat × String))) :=
  topo.foldlM (distStep g) []

/-- `max(dist, key=lambda x: dist[x][0])` on the DP table (first key with
maximal value, in insertion order), `none` on an empty table (Python raises
`ValueError` there). -/
def argmaxDist : List (String × (Nat × String)) → Option String
  | [] => none
  | x :: xs =>
    some ((xs.foldl (fun best y => if best.2.1 < y.2.1 then y else best) x).1)

/-- The backtracking loop of `nx.dag_longest_path`: follow best-predecessor
links until a node is its own predecessor; produces the path in reverse
order.  A `dist` lookup miss would raise `KeyError` in the source; it cannot
happen for a table built by `distFold` (parents are table keys), and the
embedding stops there. -/
def backtrackPath (dist : List (String × (Nat × String))) :
    Nat → String → List String
  | 0, _ => []
  | fuel + 1, v =>
    match lookupDist dist v with
    | none => [v]
    | some du => if du.2 = v then [v] else v :: backtrackPath dist fuel du.2

/-- `nx.dag_longest_path(g)` (weights defaulting to 1, i.e. longest path by
node count): empty list for the null graph, otherwise the DP over a
topological order followed by backtracking from the best end node. -/
def dag_longest_path (g : DiGraph) : Except String (List String) :=
  if g.nodes.isEmpty then Except.ok []
  else do
    let topo := (topological_order g).1
    let dist ← distFold g topo
    match argmaxDist dist with
    | none => Except.error "ValueError: max of an empty sequence"
    | some v =>
      let d := ((lookupDist dist v).map (fun du => du.1)).getD 0
      Except.ok ((backtrackPath dist (d + 1) v).reverse)

/-- The `long_chain` issue built by `check_longest_chain` (the severity
threshold 8 and the `courses=[path[-1]]` convention are from the source). -/
def mkLongChainIssue (len : Nat) (path : List String) : Issue :=
  let ending := (path.getLast?).getD ""
  { code := "long_chain"
    severity := if 8 < len then "medium" else "low"
    courses := match path.getLast? with
      | some x => [x]
      | none => []
    message := s!"Long prerequisite chain of length {len} detected ending at {ending}."
    meta := [("length", MetaVal.nat len), ("path", MetaVal.strList path)] }

/-- `analysis_engine.check_longest_chain`: `([], 0, [], true)` when the graph
is not a DAG or when the longest-path computation raises; otherwise the
issues (one `long_chain` issue iff the length exceeds the hard-coded
threshold 6), the length, the path, and `blocked_by_cycles = false`. -/
def check_longest_chain (g : DiGraph) : List Issue × Nat × List String × Bool :=
  if ¬ is_directed_acyclic_graph g then ([], 0, [], true)
  else
    match dag_longest_path g with
    | Except.error _ => ([], 0, [], true)
    | Except.ok longest_path =>
      let len := longest_path.length
      let issues := if 6 < len then [mkLongChainIssue len longest_path] else []
      (issues, len, longest_path, false)

/-- The severity rank used by the final issue sort
(`sev_map.get(x.severity, 99)`). -/
def sevRank (s : String) : Nat :=
  if s = "high" then 0 else if s = "medium" then 1 else if s = "low" then 2 else 99

/-- The sort key of `analyze_catalog`'s issue ordering: severity rank, then
issue code, then first implicated course id (`""` if none), compared
lexicographically as Python compares key tuples. -/
def issueKey (i : Issue) : Lex (Nat × Lex (String × String)) :=
  toLex (sevRank i.severity,
    toLex (i.code, match i.courses with
      | [] => ""
      | c :: _ => c))

/-- The order used to model `all_issues.sort(key=...)`: Python's stable sort
by `issueKey` is extensionally the sort of index-annotated issues by the
strict total order (key, original position). -/
def issueIdxLe (a b : Nat × Issue) : Prop :=
  issueKey a.2 < issueKey b.2 ∨ (issueKey a.2 = issueKey b.2 ∧ a.1 ≤ b.1)

instance : DecidableRel issueIdxLe := fun a b => by
  unfold issueIdxLe; infer_instance

instance : IsTotal (Nat × Issue) issueIdxLe := by
  refine ⟨fun a b => ?_⟩
  unfold issueIdxLe
  rcases lt_trichotomy (issueKey a.2) (issueKey b.2) with h | h | h
  · exact Or.inl (Or.inl h)
  · rcases Nat.le_total a.1 b.1 with hi | hi
    · exact Or.inl (Or.inr ⟨h, hi⟩)
    · exact Or.inr (Or.inr ⟨h.symm, hi⟩)
  · exact Or.inr (Or.inl h)

instance : IsTrans (Nat × Issue) issueIdxLe := by
  refine ⟨fun a b c hab hbc => ?_⟩
  unfold issueIdxLe at *
  rcases hab with h1 | ⟨h1, h1i⟩ <;> rcases hbc with h2 | ⟨h2, h2i⟩
  · exact Or.inl (h1.trans h2)
  · exact Or.inl (h2 ▸ h1)
  · exact Or.inl (h1 ▸ h2)
  · exact Or.inr ⟨h1.trans h2, h1i.trans h2i⟩

/-- The issue list after the stable sort by `issueKey`. -/
def pySortIssues (l : List Issue) : List Issue :=
  (l.enum.insertionSort issueIdxLe).map (fun p => p.2)

/-- `analysis_engine.build_graph_from_catalog`: its body is
`return build_course_graph(json_path)`, but `build_course_graph` is unbound
in `analysis_engine` (the module-top `from topic_graph import
build_course_graph, detect_cycles` fails because `topic_graph` defines
`load_course_graph`, not `build_course_graph`, and the `except ImportError:
pass` hides the failure).  Every call therefore raises `NameError`. -/
def build_graph_from_catalog (data : List RawRecord) : Except String DiGraph :=
  Except.error "NameError: name build_course_graph is not defined"

/-- `analysis_engine.analyze_catalog` applied to the parsed catalog `data`
found at `json_path`; `now` is the `datetime.now()` timestamp.  It
normalizes the catalog with `load_catalog` and collects the real ids, then
calls `build_graph_from_catalog` — which raises `NameError` because of the
silently failed import — so the rest of the pipeline (the five checks, the
metrics, and the final stable sort of the issues by severity rank, code and
first implicated course id) is unreachable on every input and the call
never returns a `Report`. -/
def analyze_catalog (json_path : String) (data : List RawRecord) (config : Config)
    (now : String) : Except String Report := do
  let cat_data := load_catalog data
  let real_ids := (cat_data.map (fun c => c.id)).eraseDups
  let graph ← build_graph_from_catalog data
  let cycle_issues ← check_cycles graph
  let missing_issues := check_missing_prereqs graph real_ids
  let iso_issues := check_isolated graph real_ids
  let bot := check_bottlenecks graph real_ids
    (config.top_bottlenecks.getD 5) (config.min_bottleneck.getD 3)
  let chain := check_longest_chain graph
  let all_issues :=
    cycle_issues ++ missing_issues ++ iso_issues ++ bot.1 ++ chain.1
  Except.ok
    { source_path := json_path
      generated_at := now
      metrics :=
        { course_count := real_ids.length
          total_nodes_in_graph := graph.nodes.length
          num_cycles := cycle_issues.length
          num_missing_prereqs := missing_issues.length
          num_isolated := iso_issues.length
          top_bottlenecks := bot.2
          longest_chain_len := chain.2.1
          longest_chain_path := chain.2.2.1
          longest_chain_blocked_by_cycles := chain.2.2.2 }
      issues := pySortIssues all_issues }

/-!  ## Specification-side graph notions

These definitions express the spec's vocabulary (edges, walks, simple
cycles, reachability) mathematically, to state the claims against. -/

/-- The edge relation of a graph. -/
def EdgeRel (g : DiGraph) (u v : String) : Prop := (u, v) ∈ g.edges

/-- `c` lists the vertices of a simple (elementary) cycle of `g`: nonempty,
consecutive vertices joined by edges, an edge from the last vertex back to
the first, and no repeated vertex. -/
def IsSimpleCycle (g : DiGraph) : List String → Prop
  | [] => False
  | a :: rest =>
    List.Chain' (EdgeRel g) (a :: rest) ∧
      EdgeRel g ((a :: rest).getLast (List.cons_ne_nil a rest)) a ∧
      (a :: rest).Nodup

/-- The graph has at least one simple cycle. -/
def HasSimpleCycle (g : DiGraph) : Prop := ∃ c, IsSimpleCycle g c

/-- Strict reachability along edges (`u` is a transitive prerequisite of
`v`). -/
def Reach (g : DiGraph) (u v : String) : Prop :=
  Relation.TransGen (EdgeRel g) u v

/-!  ## Concrete graphs and catalogs used in witnesses and counterexamples  -/

/-- The configuration dict `{}` (all keys absent). -/
def cfg0 : Config := { top_bottlenecks := none, min_bottleneck := none, long_chain_warn := none }

/-- A catalog whose single record has an `id` but no `name` key. -/
def badNameCatalog : List RawRecord :=
  [{ id := some "A", name := none, prerequisites := PrereqField.missing }]

/-- The catalog `{A: [], B: [A], C: [A, B]}` from the spec's
unlocked-frontier example. -/
def catalogABC : List RawRecord :=
  [ { id := some "A", name := some "Course A", prerequisites := PrereqField.list [] }
  , { id := some "B", name := some "Course B", prerequisites := PrereqField.list ["A"] }
  , { id := some "C", name := some "Course C", prerequisites := PrereqField.list ["A", "B"] } ]

/-- The graph built from `catalogABC`. -/
def graphABC : DiGraph := (load_course_graph catalogABC).toOption.getD DiGraph.empty

example : graphABC.nodes = ["A", "B", "C"] := by rfl
example : graphABC.edges = [("A", "B"), ("A", "C"), ("B", "C")] := by rfl

/-!  ## C1 — malformed records and `analyze_catalog`  -/

/-- **C1 (code bug).**  The claim (and the spec's §7 error policy) says a
record with an `id` but no `name` is recovered by defaulting and the
invocation never raises because of it.  The normalizer `load_catalog` does
default the name to `"Unknown"`, but the call never gets to use that: the
module-top `from topic_graph import build_course_graph, detect_cycles` in
`analysis_engine` fails (no `build_course_graph` exists in `topic_graph`)
and is silently swallowed, so `analyze_catalog` raises `NameError` at
`build_graph_from_catalog` — on this catalog as on every other — and no
`Report` is ever returned. -/
theorem analyze_catalog_name_error_on_malformed :
    load_catalog badNameCatalog = [{ id := "A", name := "Unknown", prerequisites := [] }] ∧
    analyze_catalog "catalog.json" badNameCatalog cfg0 "t" =
      Except.error "NameError: name build_course_graph is not defined" ∧
    (∀ (path now : String) (data : List RawRecord) (config : Config),
      analyze_catalog path data config now =
        Except.error "NameError: name build_course_graph is not defined") := by
  exact ⟨rfl, rfl, fun _ _ _ _ => rfl⟩

/-!  ## C8 — the unlocked frontier  -/

/-- **C8.**  `get_unlocked_courses` returns exactly the graph nodes that are
not completed and whose direct predecessors are all completed — a one-step
frontier; over `{A: [], B: [A], C: [A, B]}` with completed `{A}` the result
is exactly `["B"]` (in particular it does not contain `C`). -/
theorem get_unlocked_courses_frontier :
    (∀ (g : DiGraph) (completed : List String) (n : String),
      n ∈ get_unlocked_courses g completed ↔
        n ∈ g.nodes ∧ n ∉ completed ∧ ∀ p ∈ g.predecessors n, p ∈ completed) ∧
    get_unlocked_courses graphABC ["A"] = ["B"] := by
  refine ⟨fun g completed n => ?_, by rfl⟩
  simp [get_unlocked_courses, List.mem_filter, List.all_eq_true, and_assoc]

/-!  ## C6 — missing-prerequisite detection  -/

/-- The `missing_prereq` issue emitted for a dangling node. -/
def mkMissingIssue (g : DiGraph) (node : String) : Issue :=
  let referenced_by := g.successors node
  let joined := String.intercalate ", " referenced_by
  { code := "missing_prereq"
    severity := "high"
    courses := [node]
    message := s!"Course {node} is required by {joined} but not defined in catalog."
    meta := [("referenced_by", MetaVal.strList referenced_by)] }

lemma check_missing_prereqs_eq (g : DiGraph) (real : List String) :
    check_missing_prereqs g real =
      g.nodes.filterMap (fun node =>
        if node ∈ real then none else some (mkMissingIssue g node)) := by
  rfl

lemma missing_filter_eq (g : DiGraph) (real : List String) (node : String)
    (l : List String) (hnd : l.Nodup) :
    (l.filterMap (fun v => if v ∈ real then none else some (mkMissingIssue g v))).filter
        (fun i => decide (i.courses = [node])) =
      if node ∈ l ∧ node ∉ real then [mkMissingIssue g node] else [] := by
  induction l with
  | nil => simp
  | cons a t ih =>
    rcases List.nodup_cons.mp hnd with ⟨hat, hnt⟩
    by_cases ha : a ∈ real
    · rw [List.filterMap_cons, if_pos ha, ih hnt]
      by_cases hn : node ∈ t ∧ node ∉ real
      · have hyes : node ∈ a :: t ∧ node ∉ real := ⟨List.mem_cons_of_mem a hn.1, hn.2⟩
        rw [if_pos hn, if_pos hyes]
      · have hno : ¬(node ∈ a :: t ∧ node ∉ real) := by
          rintro ⟨hmem, hreal⟩
          rcases List.mem_cons.mp hmem with h | h
          · exact hreal (h ▸ ha)
          · exact hn ⟨h, hreal⟩
        rw [if_neg hn, if_neg hno]
    · rw [List.filterMap_cons, if_neg ha, List.filter_cons, ih hnt]
      by_cases hna : node = a
      · subst hna
        have h1 : decide ((mkMissingIssue g node).courses = [node]) = true := by
          simp [mkMissingIssue]
        have h2 : ¬(node ∈ t ∧ node ∉ real) := fun h => hat h.1
        have hyes : node ∈ node :: t ∧ node ∉ real := ⟨List.mem_cons_self node t, ha⟩
        rw [h1, if_neg h2, if_pos hyes]
        simp
      · have h2 : decide ((mkMissingIssue g a).courses = [node]) = false := by
          simp [mkMissingIssue]
          exact fun h => hna h.symm
        rw [h2]
        by_cases hn : node ∈ t ∧ node ∉ real
        · have hyes : node ∈ a :: t ∧ node ∉ real := ⟨List.mem_cons_of_mem a hn.1, hn.2⟩
          rw [if_pos hn, if_pos hyes]
          simp
        · have hno : ¬(node ∈ a :: t ∧ node ∉ real) := by
            rintro ⟨hmem, hreal⟩
            rcases List.mem_cons.mp hmem with h | h
            · exact hna h
            · exact hn ⟨h, hreal⟩
          rw [if_neg hn, if_neg hno]
          simp

/-- **C6.**  For every graph node outside the real-id set there is exactly
one `missing_prereq` issue: high severity, `courses = [node]`, and
`meta.referenced_by` the node's direct successors; real nodes are never
implicated, and every emitted issue implicates a dangling node. -/
theorem check_missing_prereqs_spec (g : DiGraph) (real : List String)
    (hnd : g.nodes.Nodup) :
    (∀ node ∈ g.nodes, node ∉ real →
      (check_missing_prereqs g real).filter (fun i => decide (i.courses = [node])) =
        [{ code := "missing_prereq"
           severity := "high"
           courses := [node]
           message := (mkMissingIssue g node).message
           meta := [("referenced_by", MetaVal.strList (g.successors node))] }]) ∧
    (∀ node ∈ real, ∀ i ∈ check_missing_prereqs g real, i.courses ≠ [node]) ∧
    (∀ i ∈ check_missing_prereqs g real,
      ∃ node ∈ g.nodes, node ∉ real ∧ i = mkMissingIssue g node) := by
  refine ⟨fun node hmem hreal => ?_, fun node hreal i hi => ?_, fun i hi => ?_⟩
  · rw [check_missing_prereqs_eq, missing_filter_eq g real node g.nodes hnd]
    simp [hmem, hreal, mkMissingIssue]
  · rw [check_missing_prereqs_eq] at hi
    rcases List.mem_filterMap.mp hi with ⟨v, hv, hif⟩
    by_cases hvr : v ∈ real
    · simp [hvr] at hif
    · simp only [hvr, if_neg, not_false_iff, Option.some.injEq] at hif
      subst hif
      show [v] ≠ [node]
      simp
      rintro rfl
      exact hvr hreal
  · rw [check_missing_prereqs_eq] at hi
    rcases List.mem_filterMap.mp hi with ⟨v, hv, hif⟩
    by_cases hvr : v ∈ real
    · simp [hvr] at hif
    · simp only [hvr, if_neg, not_false_iff, Option.some.injEq] at hif
      exact ⟨v, hv, hvr, hif.symm⟩

/-- Witness for C6 on `graphABC` extended with a dangling prerequisite. -/
def catalogDangling : List RawRecord :=
  [ { id := some "B", name := some "Course B", prerequisites := PrereqField.list ["A"] }
  , { id := some "C", name := some "Course C", prerequisites := PrereqField.list ["A"] } ]

/-- The graph built from `catalogDangling` (node `A` exists only as a
referenced prerequisite). -/
def graphDangling : DiGraph := (load_course_graph catalogDangling).toOption.getD DiGraph.empty

theorem check_missing_prereqs_spec_witness :
    graphDangling.nodes.Nodup ∧
    (check_missing_prereqs graphDangling ["B", "C"]).filter
        (fun i => decide (i.courses = ["A"])) =
      [{ code := "missing_prereq"
         severity := "high"
         courses := ["A"]
         message := (mkMissingIssue graphDangling "A").message
         meta := [("referenced_by", MetaVal.strList (graphDangling.successors "A"))] }] := by
  refine ⟨by decide, ?_⟩
  exact (check_missing_prereqs_spec graphDangling ["B", "C"] (by decide)).1 "A"
    (by decide) (by decide)

/-!  ## C4 — bottleneck detection  -/

lemma mem_bottleneck_candidates (g : DiGraph) (real : List String) (m : Nat)
    (c : Candidate) :
    c ∈ bottleneck_candidates g real m ↔
      c.id ∈ real ∧ c.id ∈ g.nodes ∧ m ≤ g.out_degree c.id ∧
        c.out_degree = g.out_degree c.id := by
  constructor
  · intro h
    rcases List.mem_filterMap.mp h with ⟨node, hnode, hf⟩
    by_cases h1 : node ∈ g.nodes
    · simp only [h1, if_pos] at hf
      by_cases h2 : m ≤ g.out_degree node
      · simp only [h2, if_pos, Option.some.injEq] at hf
        subst hf
        exact ⟨hnode, h1, h2, rfl⟩
      · simp [h2] at hf
    · simp [h1] at hf
  · rintro ⟨hreal, hnodes, hdeg, hout⟩
    refine List.mem_filterMap.mpr ⟨c.id, hreal, ?_⟩
    simp only [hnodes, if_pos, hdeg]
    cases c
    simp_all

lemma rank_candidates_perm (cands : List Candidate) :
    (rank_candidates cands).Perm cands := by
  have h1 : ((cands.enum.insertionSort candLe).map (fun p => p.2)).Perm
      (cands.enum.map (fun p => p.2)) :=
    (List.perm_insertionSort candLe cands.enum).map _
  have h2 : cands.enum.map (fun p => p.2) = cands := List.enum_map_snd cands
  rw [rank_candidates]
  rw [h2] at h1
  exact h1

lemma rank_candidates_sorted (cands : List Candidate) :
    (cands.enum.insertionSort candLe).Pairwise
      (fun p q => q.2.out_degree < p.2.out_degree ∨
        (p.2.out_degree = q.2.out_degree ∧ p.1 < q.1)) := by
  have hsorted : (cands.enum.insertionSort candLe).Pairwise candLe :=
    List.sorted_insertionSort candLe cands.enum
  have hfst : ((cands.enum.insertionSort candLe).map Prod.fst).Nodup := by
    have hperm : ((cands.enum.insertionSort candLe).map Prod.fst).Perm
        (cands.enum.map Prod.fst) := (List.perm_insertionSort candLe cands.enum).map _
    rw [hperm.nodup_iff, List.enum_map_fst]
    exact List.nodup_range _
  have hne : (cands.enum.insertionSort candLe).Pairwise (fun p q => p.1 ≠ q.1) :=
    (List.pairwise_map.mp hfst)
  refine (hsorted.and hne).imp ?_
  rintro p q ⟨hle, hne⟩
  unfold candLe at hle
  omega

/-- **C4 (amended).**  `check_bottlenecks` selects exactly the real ids
present in the graph whose out-degree reaches `min_out_degree`, each
candidate recording its true out-degree; it ranks them descending by
out-degree with ties broken by discovery order; and it returns the top
`top_k` slice of the ranking — both as `bottleneck` issues and as the
candidate list handed to the metrics (the returned list is the truncated
slice, not the full ranking). -/
theorem check_bottlenecks_spec (g : DiGraph) (real : List String) (k m : Nat) :
    (∀ v, (∃ c ∈ rank_candidates (bottleneck_candidates g real m), c.id = v) ↔
        (v ∈ real ∧ v ∈ g.nodes ∧ m ≤ g.out_degree v)) ∧
    (∀ c ∈ rank_candidates (bottleneck_candidates g real m),
        c.out_degree = g.out_degree c.id) ∧
    (rank_candidates (bottleneck_candidates g real m)).Perm
      (bottleneck_candidates g real m) ∧
    ((bottleneck_candidates g real m).enum.insertionSort candLe).Pairwise
      (fun p q => q.2.out_degree < p.2.out_degree ∨
        (p.2.out_degree = q.2.out_degree ∧ p.1 < q.1)) ∧
    check_bottlenecks g real k m =
      (((rank_candidates (bottleneck_candidates g real m)).take k).map mkBottleneckIssue,
        (rank_candidates (bottleneck_candidates g real m)).take k) := by
  refine ⟨fun v => ?_, fun c hc => ?_, rank_candidates_perm _,
    rank_candidates_sorted _, rfl⟩
  · constructor
    · rintro ⟨c, hc, rfl⟩
      have := (mem_bottleneck_candidates g real m c).mp
        ((rank_candidates_perm _).mem_iff.mp hc)
      exact ⟨this.1, this.2.1, this.2.2.1⟩
    · rintro ⟨hreal, hnodes, hdeg⟩
      refine ⟨⟨v, g.out_degree v⟩, ?_, rfl⟩
      exact (rank_candidates_perm _).mem_iff.mpr
        ((mem_bottleneck_candidates g real m _).mpr ⟨hreal, hnodes, hdeg, rfl⟩)
  · exact ((mem_bottleneck_candidates g real m c).mp
      ((rank_candidates_perm _).mem_iff.mp hc)).2.2.2

/-- A graph with six hub courses of out-degree 3 each. -/
def graphBottle : DiGraph :=
  { nodes := ["H1", "H2", "H3", "H4", "H5", "H6", "X1", "X2", "X3"]
    names := []
    edges :=
      [ ("H1", "X1"), ("H1", "X2"), ("H1", "X3")
      , ("H2", "X1"), ("H2", "X2"), ("H2", "X3")
      , ("H3", "X1"), ("H3", "X2"), ("H3", "X3")
      , ("H4", "X1"), ("H4", "X2"), ("H4", "X3")
      , ("H5", "X1"), ("H5", "X2"), ("H5", "X3")
      , ("H6", "X1"), ("H6", "X2"), ("H6", "X3") ] }

/-- **C4 counterexample.**  With six qualifying candidates and the default
`top_k = 5`, the candidate list `check_bottlenecks` returns (the one
`analyze_catalog` stores as the `top_bottlenecks` metric) has only 5
entries, while the full ranked candidate list has 6 — so the function does
not return "the full ranked candidate list", only its top-`top_k` slice. -/
theorem check_bottlenecks_truncates :
    (rank_candidates (bottleneck_candidates graphBottle
        ["H1", "H2", "H3", "H4", "H5", "H6"] 3)).length = 6 ∧
    (check_bottlenecks graphBottle ["H1", "H2", "H3", "H4", "H5", "H6"] 5 3).2.length = 5 := by
  exact ⟨by rfl, by rfl⟩

/-!  ## C5 — deterministic issue ordering  -/

lemma pySortIssues_pairwise (l : List Issue) :
    (pySortIssues l).Pairwise (fun a b => issueKey a ≤ issueKey b) := by
  have h : (l.enum.insertionSort issueIdxLe).Pairwise issueIdxLe :=
    List.sorted_insertionSort issueIdxLe l.enum
  rw [pySortIssues, List.pairwise_map]
  refine h.imp ?_
  rintro a b (h | ⟨h, _⟩)
  · exact le_of_lt h
  · exact le_of_eq h

/-- Whether an `Except` value is a success. -/
def exceptIsOk {ε α : Type} : Except ε α → Bool
  | .ok _ => true
  | .error _ => false

/-- **C5 (code bug).**  The claim says every report returned by
`analyze_catalog` carries its issues sorted by (severity rank, code, first
implicated course id) and that identical input yields identical ordering.
`analyze_catalog` never returns a report at all: every call raises
`NameError` at the graph build (the silently failed
`from topic_graph import build_course_graph, detect_cycles`), so the
sorting code at the end of the function — whose faithful model
`pySortIssues` does implement exactly that stable key — is unreachable.
The outcome is trivially timestamp-independent, but it is an error, never
a `Report`. -/
theorem analyze_catalog_no_report_to_sort :
    (∀ (path now now2 : String) (data : List RawRecord) (config : Config),
      analyze_catalog path data config now = analyze_catalog path data config now2) ∧
    (∀ (path now : String) (data : List RawRecord) (config : Config),
      exceptIsOk (analyze_catalog path data config now) = false) ∧
    exceptIsOk (analyze_catalog "p" catalogABC cfg0 "t") = false := by
  exact ⟨fun _ _ _ _ _ => rfl, fun _ _ _ _ => rfl, rfl⟩

theorem check_bottlenecks_spec_witness :
    (check_bottlenecks graphBottle ["H1", "H2", "H3", "H4", "H5", "H6"] 5 3 =
      (((rank_candidates (bottleneck_candidates graphBottle
          ["H1", "H2", "H3", "H4", "H5", "H6"] 3)).take 5).map mkBottleneckIssue,
        (rank_candidates (bottleneck_candidates graphBottle
          ["H1", "H2", "H3", "H4", "H5", "H6"] 3)).take 5)) ∧
    (("H1" ∈ ["H1", "H2", "H3", "H4", "H5", "H6"] ∧ "H1" ∈ graphBottle.nodes ∧
        3 ≤ graphBottle.out_degree "H1") →
      ∃ c ∈ rank_candidates (bottleneck_candidates graphBottle
          ["H1", "H2", "H3", "H4", "H5", "H6"] 3), c.id = "H1") := by
  have h := check_bottlenecks_spec graphBottle ["H1", "H2", "H3", "H4", "H5", "H6"] 5 3
  exact ⟨h.2.2.2.2, fun hx => (h.1 "H1").mpr hx⟩

theorem get_unlocked_courses_frontier_witness :
    ("B" ∈ get_unlocked_courses graphABC ["A"] ↔
      "B" ∈ graphABC.nodes ∧ "B" ∉ ["A"] ∧
        ∀ p ∈ graphABC.predecessors "B", p ∈ ["A"]) ∧
    get_unlocked_courses graphABC ["A"] = ["B"] :=
  ⟨get_unlocked_courses_frontier.1 graphABC ["A"] "B", get_unlocked_courses_frontier.2⟩

/-!  ## Walks, cycles, and the simple-cycle extraction lemma  -/

/-- A closed walk: a nonempty edge-path from a vertex back to itself. -/
def IsClosedWalk (g : DiGraph) (l : List String) : Prop :=
  (∃ v p, l = v :: p ++ [v]) ∧ l.Chain' (EdgeRel g)

lemma not_nodup_split {α : Type} {l : List α} (h : ¬ l.Nodup) :
    ∃ (l₁ : List α) (x : α) (l₂ l₃ : List α), l = l₁ ++ x :: l₂ ++ x :: l₃ := by
  induction l with
  | nil => exact absurd List.nodup_nil h
  | cons a t ih =>
    by_cases hat : a ∈ t
    · rcases List.append_of_mem hat with ⟨s, u, rfl⟩
      exact ⟨[], a, s, u, rfl⟩
    · have : ¬ t.Nodup := fun hn => h (List.nodup_cons.mpr ⟨hat, hn⟩)
      rcases ih this with ⟨l₁, x, l₂, l₃, rfl⟩
      exact ⟨a :: l₁, x, l₂, l₃, rfl⟩

lemma isSimpleCycle_of_parts (g : DiGraph) (a : String) (rest : List String)
    (hchain : List.Chain' (EdgeRel g) (a :: rest))
    (hclose : EdgeRel g ((a :: rest).getLast (List.cons_ne_nil a rest)) a)
    (hnodup : (a :: rest).Nodup) : IsSimpleCycle g (a :: rest) := by
  show List.Chain' (EdgeRel g) (a :: rest) ∧ _ ∧ _
  exact ⟨hchain, hclose, hnodup⟩

/-- Every closed walk contains a simple cycle. -/
lemma hasSimpleCycle_of_closedWalk (g : DiGraph) :
    ∀ (n : Nat) (l : List String), l.length ≤ n → IsClosedWalk g l →
      HasSimpleCycle g := by
  intro n
  induction n with
  | zero =>
    rintro l hl ⟨⟨v, p, rfl⟩, -⟩
    simp at hl
  | succ n ih =>
    rintro l hl ⟨⟨v, p, rfl⟩, hchain⟩
    have hchain2 : List.Chain' (EdgeRel g) ((v :: p) ++ [v]) := by
      simpa using hchain
    have hclose : EdgeRel g ((v :: p).getLast (List.cons_ne_nil v p)) v := by
      rcases List.chain'_append.mp hchain2 with ⟨-, -, hmid⟩
      exact hmid _ (List.getLast?_eq_getLast _ (List.cons_ne_nil v p)) _ rfl
    have hchainvp : List.Chain' (EdgeRel g) (v :: p) :=
      hchain2.prefix (List.prefix_append _ _)
    by_cases hnd : (v :: p).Nodup
    · exact ⟨v :: p, isSimpleCycle_of_parts g v p hchainvp hclose hnd⟩
    · rcases not_nodup_split hnd with ⟨l₁, x, l₂, l₃, hsplit⟩
      have hinfix : (x :: l₂ ++ [x]) <:+: v :: p ++ [v] := by
        refine ⟨l₁, l₃ ++ [v], ?_⟩
        have : v :: p ++ [v] = (v :: p) ++ [v] := by simp
        rw [this, hsplit]
        simp
      have hchain3 : List.Chain' (EdgeRel g) (x :: l₂ ++ [x]) := hchain.infix hinfix
      have hlen : (x :: l₂ ++ [x]).length ≤ n := by
        have h1 : (v :: p).length = l₁.length + l₂.length + l₃.length + 2 := by
          rw [hsplit]; simp; omega
        have h2 : (v :: p ++ [v]).length ≤ n + 1 := hl
        simp at h1 h2 ⊢
        omega
      exact ih (x :: l₂ ++ [x]) hlen ⟨⟨x, l₂, rfl⟩, hchain3⟩

/-!  ## Correctness of the Kahn generation loop  -/

lemma nodup_length_le_of_subset {l s : List String} (h : l.Nodup) (hs : l ⊆ s) :
    l.length ≤ s.length := by
  have h1 : l.toFinset.card = l.length := List.toFinset_card_of_nodup h
  have h2 : l.toFinset ⊆ s.toFinset := by
    intro x hx
    simp only [List.mem_toFinset] at hx ⊢
    exact hs hx
  have h3 := Finset.card_le_card h2
  have h4 : s.toFinset.card ≤ s.length := s.toFinset_card_le
  omega

lemma edge_mem_predecessors {g : DiGraph} {u v : String} (h : EdgeRel g u v) :
    u ∈ g.predecessors v := by
  unfold DiGraph.predecessors
  exact List.mem_map.mpr ⟨(u, v), List.mem_filter.mpr ⟨h, by simp⟩, rfl⟩

lemma mem_predecessors_edge {g : DiGraph} {u v : String} (h : u ∈ g.predecessors v) :
    EdgeRel g u v := by
  unfold DiGraph.predecessors at h
  rcases List.mem_map.mp h with ⟨e, he, rfl⟩
  rcases List.mem_filter.mp he with ⟨hmem, hv⟩
  have hv2 : e.2 = v := by simpa using hv
  show (e.1, v) ∈ g.edges
  rw [← hv2]
  exact hmem

lemma mem_nextGeneration {g : DiGraph} {processed remaining : List String} {v : String} :
    v ∈ nextGeneration g processed remaining ↔
      v ∈ remaining ∧ ∀ u ∈ g.predecessors v, u ∈ processed := by
  simp [nextGeneration, List.mem_filter, List.all_eq_true]

/-- Every predecessor of the `n`-th emitted node occurs among the first `n`
emitted nodes. -/
def OrderSound (g : DiGraph) (P : List String) : Prop :=
  ∀ (n : Nat) (v : String), P[n]? = some v → ∀ u, EdgeRel g u v → u ∈ P.take n

lemma orderSound_nil (g : DiGraph) : OrderSound g [] := by
  intro n v hv
  simp at hv

lemma orderSound_append {g : DiGraph} {P Q : List String}
    (hP : OrderSound g P) (hQ : ∀ v ∈ Q, ∀ u, EdgeRel g u v → u ∈ P) :
    OrderSound g (P ++ Q) := by
  intro n v hv u hu
  rw [List.getElem?_append] at hv
  by_cases hn : n < P.length
  · rw [if_pos hn] at hv
    have hmem := hP n v hv u hu
    have : (P ++ Q).take n = P.take n ++ Q.take (n - P.length) :=
      List.take_append_eq_append_take
    rw [this]
    exact List.mem_append_left _ hmem
  · rw [if_neg hn] at hv
    have hvQ : v ∈ Q := List.getElem?_mem hv
    have humem : u ∈ P := hQ v hvQ u hu
    have : (P ++ Q).take n = P.take n ++ Q.take (n - P.length) :=
      List.take_append_eq_append_take
    rw [this, List.take_of_length_le (by omega)]
    exact List.mem_append_left _ humem

lemma topoLoop_succ (g : DiGraph) (fuel : Nat) (processed remaining : List String) :
    topoLoop g (fuel + 1) processed remaining =
      if (nextGeneration g processed remaining).isEmpty then (processed, remaining)
      else topoLoop g fuel (processed ++ nextGeneration g processed remaining)
        (remaining.filter (fun v => decide (v ∉ nextGeneration g processed remaining))) := rfl

lemma topoLoop_spec (g : DiGraph) :
    ∀ (fuel : Nat) (processed remaining : List String),
      remaining.length < fuel →
      OrderSound g processed →
      ((topoLoop g fuel processed remaining).1 ++
          (topoLoop g fuel processed remaining).2).Perm (processed ++ remaining) ∧
        OrderSound g (topoLoop g fuel processed remaining).1 ∧
        nextGeneration g (topoLoop g fuel processed remaining).1
          (topoLoop g fuel processed remaining).2 = [] := by
  intro fuel
  induction fuel with
  | zero =>
    intro processed remaining h hOS
    omega
  | succ fuel ih =>
    intro processed remaining hlen hOS
    rw [topoLoop_succ]
    by_cases hgen : (nextGeneration g processed remaining).isEmpty
    · rw [if_pos hgen]
      refine ⟨List.Perm.refl _, hOS, ?_⟩
      exact List.isEmpty_iff.mp hgen
    · rw [if_neg hgen]
      set gen := nextGeneration g processed remaining with hgen_def
      have hgen_ne : gen ≠ [] := fun h => hgen (by rw [h]; rfl)
      have hgen_sub : gen ⊆ remaining := by
        intro x hx
        exact (mem_nextGeneration.mp hx).1
      have hstrict : (remaining.filter (fun v => decide (v ∉ gen))).length <
          remaining.length := by
        refine List.length_filter_lt_length_iff_exists.mpr ?_
        rcases List.exists_mem_of_ne_nil gen hgen_ne with ⟨x, hx⟩
        exact ⟨x, hgen_sub hx, by simpa using hx⟩
      have hOS2 : OrderSound g (processed ++ gen) := by
        refine orderSound_append hOS ?_
        intro v hv u hu
        exact (mem_nextGeneration.mp hv).2 u (edge_mem_predecessors hu)
      rcases ih (processed ++ gen) (remaining.filter (fun v => decide (v ∉ gen)))
        (by omega) hOS2 with ⟨hperm, hOS3, hfinal⟩
      refine ⟨?_, hOS3, hfinal⟩
      refine hperm.trans ?_
      rw [List.append_assoc]
      refine List.Perm.append_left processed ?_
      have hfe : remaining.filter (fun v => decide (v ∉ gen)) =
          remaining.filter (fun v =>
            !((g.predecessors v).all (fun u => decide (u ∈ processed)))) := by
        refine List.filter_congr ?_
        intro x hx
        by_cases hall : ((g.predecessors x).all (fun u => decide (u ∈ processed))) = true
        · have hxg : x ∈ gen := List.mem_filter.mpr ⟨hx, hall⟩
          simp [hxg, hall]
        · have hxg : x ∉ gen := fun hmem => hall (List.mem_filter.mp hmem).2
          simp [hxg, hall]
      rw [hfe]
      have := List.filter_append_perm
        (fun v => (g.predecessors v).all (fun u => decide (u ∈ processed))) remaining
      exact this

lemma topological_order_spec (g : DiGraph) :
    ((topological_order g).1 ++ (topological_order g).2).Perm g.nodes ∧
      OrderSound g (topological_order g).1 ∧
      nextGeneration g (topological_order g).1 (topological_order g).2 = [] := by
  have h := topoLoop_spec g (g.nodes.length + 1) [] g.nodes (by omega) (orderSound_nil g)
  simpa [topological_order] using h

/-- A first-occurrence split: if some member of `P` satisfies `p`, then `P`
splits at the first such member. -/
lemma first_mem_split {α : Type} (p : α → Prop) [DecidablePred p] :
    ∀ (P : List α), (∃ v ∈ P, p v) →
      ∃ P₁ v P₂, P = P₁ ++ v :: P₂ ∧ p v ∧ ∀ x ∈ P₁, ¬ p x := by
  intro P
  induction P with
  | nil => rintro ⟨v, hv, -⟩; cases hv
  | cons a t ih =>
    intro h
    by_cases ha : p a
    · exact ⟨[], a, t, rfl, ha, by simp⟩
    · have : ∃ v ∈ t, p v := by
        rcases h with ⟨v, hv, hpv⟩
        rcases List.mem_cons.mp hv with rfl | hvt
        · exact absurd hpv ha
        · exact ⟨v, hvt, hpv⟩
      rcases ih this with ⟨P₁, v, P₂, rfl, hpv, hP₁⟩
      refine ⟨a :: P₁, v, P₂, rfl, hpv, ?_⟩
      intro x hx
      rcases List.mem_cons.mp hx with rfl | hxP
      · exact ha
      · exact hP₁ x hxP

/-- Every vertex of a simple cycle has an in-cycle predecessor. -/
lemma cycle_pred {g : DiGraph} {c : List String} (hc : IsSimpleCycle g c) :
    ∀ v ∈ c, ∃ u ∈ c, EdgeRel g u v := by
  rcases c with _ | ⟨a, rest⟩
  · exact absurd hc id
  · rcases hc with ⟨hchain, hclose, -⟩
    intro v hv
    rcases List.mem_iff_get.mp hv with ⟨⟨i, hi⟩, rfl⟩
    cases i with
    | zero =>
      refine ⟨(a :: rest).getLast (List.cons_ne_nil a rest), List.getLast_mem _, ?_⟩
      exact hclose
    | succ j =>
      have hj : j < (a :: rest).length - 1 := by
        simp at hi ⊢
        omega
      refine ⟨(a :: rest).get ⟨j, by omega⟩, List.get_mem _ j _, ?_⟩
      exact List.chain'_iff_get.mp hchain j hj

/-- If the topological loop consumed every node, the graph has no simple
cycle (the emission order is a topological order). -/
lemma no_simpleCycle_of_complete {g : DiGraph} (hWF : g.WF)
    (h : (topological_order g).2 = []) : ¬ HasSimpleCycle g := by
  rintro ⟨c, hc⟩
  rcases topological_order_spec g with ⟨hperm, hOS, -⟩
  rw [h, List.append_nil] at hperm
  set P := (topological_order g).1 with hP
  -- every cycle vertex is a node, hence in P
  have hcP : ∀ v ∈ c, v ∈ P := by
    intro v hv
    rcases cycle_pred hc v hv with ⟨u, -, hu⟩
    have hnode : v ∈ g.nodes := (hWF.2.2 _ hu).2
    exact hperm.mem_iff.mpr hnode
  -- split P at the first cycle vertex
  have hex : ∃ v ∈ P, v ∈ c := by
    rcases c with _ | ⟨a, rest⟩
    · exact absurd hc id
    · exact ⟨a, hcP a (List.mem_cons_self a rest), List.mem_cons_self a rest⟩
  rcases first_mem_split (fun v => v ∈ c) P hex with ⟨P₁, v, P₂, hsplit, hvc, hP₁⟩
  rcases cycle_pred hc v hvc with ⟨u, huc, hedge⟩
  have hvP : P[P₁.length]? = some v := by
    rw [hsplit, List.getElem?_append_right (le_refl _)]
    simp
  have := hOS P₁.length v hvP u hedge
  rw [hsplit, List.take_left] at this
  exact hP₁ u this huc

/-- If the topological loop left nodes over, the graph has a simple cycle
(every leftover node keeps an unprocessed predecessor, yielding a closed
walk by descent and pigeonhole). -/
lemma simpleCycle_of_leftover {g : DiGraph} (hWF : g.WF)
    (h : (topological_order g).2 ≠ []) : HasSimpleCycle g := by
  rcases topological_order_spec g with ⟨hperm, -, hfinal⟩
  set P := (topological_order g).1 with hPdef
  set R := (topological_order g).2 with hRdef
  have hstep : ∀ v ∈ R, ∃ u ∈ R, EdgeRel g u v := by
    intro v hv
    have hnotgen : v ∉ nextGeneration g P R := by
      rw [hfinal]
      exact List.not_mem_nil v
    have : ¬ (v ∈ R ∧ ∀ u ∈ g.predecessors v, u ∈ P) := fun hx =>
      hnotgen (mem_nextGeneration.mpr hx)
    push_neg at this
    rcases this hv with ⟨u, hupred, hunotP⟩
    have hedge : EdgeRel g u v := mem_predecessors_edge hupred
    have hunode : u ∈ g.nodes := (hWF.2.2 _ hedge).1
    have : u ∈ P ++ R := hperm.mem_iff.mpr hunode
    rcases List.mem_append.mp this with huP | huR
    · exact absurd huP hunotP
    · exact ⟨u, huR, hedge⟩
  -- build arbitrarily long chains inside R
  have hwalk : ∀ n : Nat, ∃ l : List String,
      l.length = n + 1 ∧ (∀ x ∈ l, x ∈ R) ∧ l.Chain' (EdgeRel g) := by
    intro n
    induction n with
    | zero =>
      rcases List.exists_mem_of_ne_nil R h with ⟨r, hr⟩
      exact ⟨[r], rfl, by simpa using hr, List.chain'_singleton r⟩
    | succ n ihw =>
      rcases ihw with ⟨l, hlen, hmem, hchain⟩
      rcases l with _ | ⟨x, rest⟩
      · simp at hlen
      · rcases hstep x (hmem x (List.mem_cons_self x rest)) with ⟨u, huR, hedge⟩
        refine ⟨u :: x :: rest, by simpa using hlen, ?_, ?_⟩
        · intro y hy
          rcases List.mem_cons.mp hy with rfl | hy2
          · exact huR
          · exact hmem y hy2
        · exact List.chain'_cons.mpr ⟨hedge, hchain⟩
  rcases hwalk R.length with ⟨l, hlen, hmem, hchain⟩
  have hnotnodup : ¬ l.Nodup := by
    intro hnd
    have := nodup_length_le_of_subset hnd hmem
    omega
  rcases not_nodup_split hnotnodup with ⟨l₁, x, l₂, l₃, hsplit⟩
  have hinfix : (x :: l₂ ++ [x]) <:+: l := ⟨l₁, l₃, by rw [hsplit]; simp⟩
  exact hasSimpleCycle_of_closedWalk g (x :: l₂ ++ [x]).length _ le_rfl
    ⟨⟨x, l₂, rfl⟩, hchain.infix hinfix⟩

/-- `is_directed_acyclic_graph` decides the absence of simple cycles. -/
lemma isDAG_iff_no_simpleCycle {g : DiGraph} (hWF : g.WF) :
    is_directed_acyclic_graph g = true ↔ ¬ HasSimpleCycle g := by
  constructor
  · intro h
    exact no_simpleCycle_of_complete hWF (List.isEmpty_iff.mp h)
  · intro h
    by_contra hb
    have : (topological_order g).2 ≠ [] := fun he =>
      hb (by rw [is_directed_acyclic_graph, he]; rfl)
    exact h (simpleCycle_of_leftover hWF this)

/-!  ## Correctness of the longest-path DP  -/

lemma lookupDist_append {dist : List (String × (Nat × String))}
    {e : String × (Nat × String)} {u : String} {x : Nat × String}
    (h : lookupDist dist u = some x) : lookupDist (dist ++ [e]) u = some x := by
  unfold lookupDist at h ⊢
  rcases Option.map_eq_some'.mp h with ⟨p, hp, rfl⟩
  rw [List.find?_append, hp]
  rfl

lemma lookupDist_mem {dist : List (String × (Nat × String))} {u : String}
    {x : Nat × String} (h : lookupDist dist u = some x) : (u, x) ∈ dist := by
  unfold lookupDist at h
  rcases Option.map_eq_some'.mp h with ⟨p, hp, rfl⟩
  have hmem := List.mem_of_find?_eq_some hp
  have hkey := List.find?_some hp
  have : p.1 = u := by simpa using hkey
  rw [← this]
  exact hmem

lemma lookupDist_isSome_of_key {dist : List (String × (Nat × String))} {u : String}
    (h : u ∈ dist.map Prod.fst) : ∃ x, lookupDist dist u = some x := by
  rcases List.mem_map.mp h with ⟨p, hp, rfl⟩
  have : (dist.find? (fun q => decide (q.1 = p.1))).isSome := by
    rw [List.find?_isSome]
    exact ⟨p, hp, by simp⟩
  rcases Option.isSome_iff_exists.mp this with ⟨q, hq⟩
  exact ⟨q.2, by unfold lookupDist; rw [hq]; rfl⟩

/-- The parent links recorded in the DP table stay inside the table and
decrease the recorded length by exactly one (or are self-links at length
0). -/
def ParentInv (dist : List (String × (Nat × String))) : Prop :=
  ∀ p ∈ dist, (p.2.1 = 0 ∧ p.2.2 = p.1) ∨
    (p.2.2 ≠ p.1 ∧ ∃ q, lookupDist dist p.2.2 = some q ∧ q.1 + 1 = p.2.1)

lemma mapM_lookup_ok (dist : List (String × (Nat × String))) :
    ∀ (l : List String), (∀ u ∈ l, ∃ du, lookupDist dist u = some du) →
      ∃ res, (l.mapM (fun u =>
          match lookupDist dist u with
          | some du => Except.ok (du.1 + 1, u)
          | none =>
            (Except.error "KeyError: predecessor not in dist" :
              Except String (Nat × String)))) = Except.ok res ∧
        ∀ x ∈ res, ∃ u ∈ l, ∃ du, lookupDist dist u = some du ∧ x = (du.1 + 1, u) := by
  intro l
  induction l with
  | nil =>
    intro _
    exact ⟨[], rfl, by simp⟩
  | cons u t ih =>
    intro h
    rcases h u (List.mem_cons_self u t) with ⟨du, hdu⟩
    rcases ih (fun w hw => h w (List.mem_cons_of_mem u hw)) with ⟨res, hres, hprop⟩
    refine ⟨(du.1 + 1, u) :: res, ?_, ?_⟩
    · rw [List.mapM_cons, hdu, hres]
      rfl
    · intro x hx
      rcases List.mem_cons.mp hx with rfl | hx2
      · exact ⟨u, List.mem_cons_self u t, du, hdu, rfl⟩
      · rcases hprop x hx2 with ⟨w, hw, dw, hdw, hxw⟩
        exact ⟨w, List.mem_cons_of_mem u hw, dw, hdw, hxw⟩

lemma maxByVal_mem : ∀ (xs : List (Nat × String)) (x : Nat × String),
    maxByVal x xs ∈ x :: xs := by
  intro xs
  induction xs with
  | nil => intro x; exact List.mem_singleton.mpr rfl
  | cons y ys ih =>
    intro x
    have h1 : maxByVal x (y :: ys) = maxByVal (if x.1 < y.1 then y else x) ys := rfl
    rw [h1]
    have h2 := ih (if x.1 < y.1 then y else x)
    rcases List.mem_cons.mp h2 with heq | hmem
    · rw [heq]
      by_cases hxy : x.1 < y.1
      · rw [if_pos hxy]
        exact List.mem_cons_of_mem x (List.mem_cons_self y ys)
      · rw [if_neg hxy]
        exact List.mem_cons_self x _
    · exact List.mem_cons_of_mem x (List.mem_cons_of_mem y hmem)

lemma argmaxDist_spec (d : String × (Nat × String))
    (ds : List (String × (Nat × String))) :
    ∃ v, argmaxDist (d :: ds) = some v ∧ v ∈ (d :: ds).map Prod.fst := by
  have hmem : ∀ (xs : List (String × (Nat × String))) (x : String × (Nat × String)),
      xs.foldl (fun best y => if best.2.1 < y.2.1 then y else best) x ∈ x :: xs := by
    intro xs
    induction xs with
    | nil => intro x; exact List.mem_singleton.mpr rfl
    | cons y ys ih =>
      intro x
      have h2 := ih (if x.2.1 < y.2.1 then y else x)
      rcases List.mem_cons.mp h2 with heq | hmem
      · show List.foldl _ _ (y :: ys) ∈ _
        rw [List.foldl_cons, heq]
        by_cases hxy : x.2.1 < y.2.1
        · rw [if_pos hxy]
          exact List.mem_cons_of_mem x (List.mem_cons_self y ys)
        · rw [if_neg hxy]
          exact List.mem_cons_self x _
      · show List.foldl _ _ (y :: ys) ∈ _
        rw [List.foldl_cons]
        exact List.mem_cons_of_mem x (List.mem_cons_of_mem y hmem)
  refine ⟨(ds.foldl
      (fun (best y : String × (Nat × String)) =>
        if best.2.1 < y.2.1 then y else best) d).1, rfl, ?_⟩
  exact List.mem_map.mpr ⟨_, hmem ds d, rfl⟩

lemma distFold_go (g : DiGraph) :
    ∀ (suffix prefixList : List String) (dist : List (String × (Nat × String))),
      (prefixList ++ suffix).Nodup →
      OrderSound g (prefixList ++ suffix) →
      dist.map Prod.fst = prefixList →
      (∀ p ∈ dist, p.2.1 + 1 ≤ dist.length) →
      ParentInv dist →
      ∃ dist', suffix.foldlM (distStep g) dist = Except.ok dist' ∧
        dist'.map Prod.fst = prefixList ++ suffix ∧
        (∀ p ∈ dist', p.2.1 + 1 ≤ dist'.length) ∧ ParentInv dist' := by
  intro suffix
  induction suffix with
  | nil =>
    intro prefixList dist hnd hOS hkeys hbound hparent
    exact ⟨dist, rfl, by simpa using hkeys, hbound, hparent⟩
  | cons v t ih =>
    intro prefixList dist hnd hOS hkeys hbound hparent
    have hvnotpre : v ∉ prefixList := by
      rcases List.nodup_append.mp hnd with ⟨-, -, hdisj⟩
      intro hv
      exact hdisj hv (List.mem_cons_self v t)
    have hvpos : (prefixList ++ v :: t)[prefixList.length]? = some v := by
      rw [List.getElem?_append_right (le_refl _)]
      simp
    have hpreds : ∀ u ∈ g.predecessors v, u ∈ prefixList := by
      intro u hu
      have := hOS prefixList.length v hvpos u (mem_predecessors_edge hu)
      rwa [List.take_left] at this
    have hlookups : ∀ u ∈ g.predecessors v, ∃ du, lookupDist dist u = some du := by
      intro u hu
      exact lookupDist_isSome_of_key (by rw [hkeys]; exact hpreds u hu)
    rcases mapM_lookup_ok dist (g.predecessors v) hlookups with ⟨us, hus, husprop⟩
    -- the new entry and its facts
    have hentry : ∃ entry : Nat × String,
        distStep g dist v = Except.ok (dist ++ [(v, entry)]) ∧
        entry.1 + 1 ≤ dist.length + 1 ∧
        ((entry.1 = 0 ∧ entry.2 = v) ∨
          (entry.2 ≠ v ∧ ∃ q, lookupDist dist entry.2 = some q ∧ q.1 + 1 = entry.1)) := by
      rcases hu : us with _ | ⟨x, xs⟩
      · refine ⟨(0, v), ?_, by omega, Or.inl ⟨rfl, rfl⟩⟩
        unfold distStep
        rw [hus, hu]
        rfl
      · have hmem : maxByVal x xs ∈ us := by rw [hu]; exact maxByVal_mem xs x
        rcases husprop _ hmem with ⟨u, hu2, du, hdu, heq⟩
        have hdumem : (u, du) ∈ dist := lookupDist_mem hdu
        have hb := hbound (u, du) hdumem
        refine ⟨maxByVal x xs, ?_, ?_, Or.inr ⟨?_, du, ?_, ?_⟩⟩
        · unfold distStep
          rw [hus, hu]
          rfl
        · rw [heq]
          show du.1 + 1 + 1 ≤ dist.length + 1
          have hb2 : du.1 + 1 ≤ dist.length := hb
          omega
        · rw [heq]
          show u ≠ v
          intro huv
          exact hvnotpre (huv ▸ hpreds u hu2)
        · rw [heq]
          exact hdu
        · rw [heq]
      -- end hentry
    rcases hentry with ⟨entry, hstep, hvalbound, hparent_entry⟩
    -- invariants for the extended table
    have hkeys2 : (dist ++ [(v, entry)]).map Prod.fst = prefixList ++ [v] := by
      rw [List.map_append, hkeys]
      rfl
    have hbound2 : ∀ p ∈ dist ++ [(v, entry)], p.2.1 + 1 ≤ (dist ++ [(v, entry)]).length := by
      intro p hp
      rcases List.mem_append.mp hp with hp1 | hp2
      · have := hbound p hp1
        simp
        omega
      · rcases List.mem_singleton.mp hp2 with rfl
        simp at hvalbound ⊢
        omega
    have hparent2 : ParentInv (dist ++ [(v, entry)]) := by
      intro p hp
      rcases List.mem_append.mp hp with hp1 | hp2
      · rcases hparent p hp1 with hself | ⟨hne, q, hq, hq1⟩
        · exact Or.inl hself
        · exact Or.inr ⟨hne, q, lookupDist_append hq, hq1⟩
      · rcases List.mem_singleton.mp hp2 with rfl
        rcases hparent_entry with hself | ⟨hne, q, hq, hq1⟩
        · exact Or.inl hself
        · exact Or.inr ⟨hne, q, lookupDist_append hq, hq1⟩
    have hlist : (prefixList ++ [v]) ++ t = prefixList ++ v :: t := by simp
    rcases ih (prefixList ++ [v]) (dist ++ [(v, entry)])
      (by rw [hlist]; exact hnd) (by rw [hlist]; exact hOS) hkeys2 hbound2 hparent2
      with ⟨dist', hfold, hkeys', hbound', hparent'⟩
    refine ⟨dist', ?_, by rw [hkeys', hlist], hbound', hparent'⟩
    rw [List.foldlM_cons, hstep]
    exact hfold

lemma backtrack_length {dist : List (String × (Nat × String))}
    (hparent : ParentInv dist) :
    ∀ (d : Nat) (v : String) (u : String),
      lookupDist dist v = some (d, u) →
      (backtrackPath dist (d + 1) v).length = d + 1 := by
  intro d
  induction d using Nat.strong_induction_on with
  | _ d ih =>
    intro v u hlk
    have hmem : (v, (d, u)) ∈ dist := lookupDist_mem hlk
    rcases hparent _ hmem with ⟨hd0, hu⟩ | ⟨hne, q, hq, hq1⟩
    · simp only at hd0 hu
      subst hd0
      show (backtrackPath dist 1 v).length = 1
      unfold backtrackPath
      rw [hlk]
      simp only at hu ⊢
      rw [if_pos hu]
      rfl
    · simp only at hne hq hq1
      have hd : d = q.1 + 1 := hq1.symm
      subst hd
      show (backtrackPath dist (q.1 + 1 + 1) v).length = q.1 + 1 + 1
      unfold backtrackPath
      rw [hlk]
      simp only
      rw [if_neg hne]
      have hrec := ih q.1 (by omega) u q.2 (by rw [hq])
      simp only [List.length_cons]
      omega

lemma dag_longest_path_ok (g : DiGraph) (hWF : g.WF)
    (hdag : is_directed_acyclic_graph g = true) (hne : g.nodes ≠ []) :
    ∃ path, dag_longest_path g = Except.ok path ∧
      1 ≤ path.length ∧ path.length ≤ g.nodes.length := by
  rcases topological_order_spec g with ⟨hperm, hOS, -⟩
  have hleft : (topological_order g).2 = [] := List.isEmpty_iff.mp hdag
  rw [hleft, List.append_nil] at hperm
  have hTnd : (topological_order g).1.Nodup := hperm.nodup_iff.mpr hWF.1
  have hTlen : (topological_order g).1.length = g.nodes.length := hperm.length_eq
  have hTne : (topological_order g).1 ≠ [] := by
    intro h
    rw [h] at hTlen
    exact hne (List.length_eq_zero.mp hTlen.symm)
  rcases distFold_go g (topological_order g).1 [] [] (by simpa using hTnd)
    (by simpa using hOS) rfl (by intro p hp; cases hp) (by intro p hp; cases hp)
    with ⟨dist, hfold, hkeys, hbound, hparent⟩
  simp only [List.nil_append] at hkeys
  have hdlen : dist.length = g.nodes.length := by
    have := congrArg List.length hkeys
    simpa [hTlen] using this
  rcases hd : dist with _ | ⟨d0, ds⟩
  · rw [hd] at hkeys
    exact absurd hkeys.symm (by simpa using hTne)
  · rcases argmaxDist_spec d0 ds with ⟨v, hargmax, hvkeys⟩
    rcases lookupDist_isSome_of_key hvkeys with ⟨dv, hlk⟩
    rw [← hd] at hargmax hvkeys hlk
    have hblen := backtrack_length hparent dv.1 v dv.2 (by rw [hlk])
    have hvb : dv.1 + 1 ≤ dist.length := by
      have := hbound (v, dv) (lookupDist_mem hlk)
      simpa using this
    refine ⟨(backtrackPath dist (dv.1 + 1) v).reverse, ?_, ?_, ?_⟩
    · rw [dag_longest_path]
      rw [if_neg (fun h => hne (List.isEmpty_iff.mp h))]
      show (distFold g (topological_order g).1).bind _ = _
      have hfold2 : distFold g (topological_order g).1 = Except.ok dist := hfold
      rw [hfold2]
      show (match argmaxDist dist with
        | none => Except.error "ValueError: max of an empty sequence"
        | some v =>
          Except.ok ((backtrackPath dist
            ((((lookupDist dist v).map (fun du : Nat × String => du.1)).getD 0) + 1)
            v).reverse)) = _
      rw [hargmax]
      show Except.ok ((backtrackPath dist
          (((lookupDist dist v).map (fun du : Nat × String => du.1)).getD 0 + 1)
          v).reverse) =
        Except.ok ((backtrackPath dist (dv.1 + 1) v).reverse)
      rw [hlk]
      rfl
    · rw [List.length_reverse, hblen]
      omega
    · rw [List.length_reverse, hblen]
      omega

/-- **C2 (amended).**  `check_longest_chain` reports `blocked_by_cycles =
true` (with length 0 and empty path) exactly when the graph has at least one
simple cycle; on a cycle-free graph with at least one node it returns
`blocked_by_cycles = false` and a path whose node count (the reported
length) is positive and bounded by the node count of the graph.  (The empty
graph is the exception the original claim misses: it is cycle-free but
yields length 0 — see the counterexample.) -/
theorem check_longest_chain_cycles_and_bounds (g : DiGraph) (hWF : g.WF) :
    ((check_longest_chain g).2.2.2 = true ↔ HasSimpleCycle g) ∧
    (HasSimpleCycle g → check_longest_chain g = ([], 0, [], true)) ∧
    ((check_longest_chain g).2.1 = (check_longest_chain g).2.2.1.length) ∧
    (¬ HasSimpleCycle g → g.nodes ≠ [] →
      (check_longest_chain g).2.2.2 = false ∧
      1 ≤ (check_longest_chain g).2.1 ∧
      (check_longest_chain g).2.1 ≤ g.nodes.length) := by
  by_cases hdag : is_directed_acyclic_graph g = true
  · have hnc : ¬ HasSimpleCycle g := (isDAG_iff_no_simpleCycle hWF).mp hdag
    by_cases hne : g.nodes = []
    · have hempty : dag_longest_path g = Except.ok [] := by
        rw [dag_longest_path, if_pos (by rw [hne]; rfl)]
      have hcheck : check_longest_chain g = ([], 0, [], false) := by
        rw [check_longest_chain, if_neg (by rw [hdag]; exact fun h => h rfl)]
        rw [hempty]
        rfl
      rw [hcheck]
      refine ⟨?_, ?_, rfl, ?_⟩
      · simp only
        constructor
        · intro h
          cases h
        · intro h
          exact absurd h hnc
      · intro h
        exact absurd h hnc
      · intro _ hne2
        exact absurd hne hne2
    · rcases dag_longest_path_ok g hWF hdag hne with ⟨path, hok, h1, h2⟩
      have hcheck : check_longest_chain g =
          (if 6 < path.length then [mkLongChainIssue path.length path] else [],
            path.length, path, false) := by
        rw [check_longest_chain, if_neg (by rw [hdag]; exact fun h => h rfl)]
        rw [hok]
      rw [hcheck]
      refine ⟨?_, ?_, rfl, ?_⟩
      · simp only
        constructor
        · intro h
          cases h
        · intro h
          exact absurd h hnc
      · intro h
        exact absurd h hnc
      · intro _ _
        exact ⟨rfl, h1, h2⟩
  · have hfalse : is_directed_acyclic_graph g = false := by
      cases h : is_directed_acyclic_graph g
      · rfl
      · exact absurd h hdag
    have hcyc : HasSimpleCycle g := by
      refine simpleCycle_of_leftover hWF ?_
      intro h
      exact hdag (by rw [is_directed_acyclic_graph, h]; rfl)
    have hcheck : check_longest_chain g = ([], 0, [], true) := by
      rw [check_longest_chain, if_pos (by rw [hfalse]; exact fun h => Bool.noConfusion h)]
    rw [hcheck]
    exact ⟨⟨fun _ => hcyc, fun _ => rfl⟩, fun _ => rfl, rfl,
      fun hno _ => absurd hcyc hno⟩

/-- **C2 counterexample.**  The empty graph has zero simple cycles, yet
`check_longest_chain` returns length 0 (not a positive integer) — the
original claim's "positive" fails there (blocked is still `false`). -/
theorem check_longest_chain_empty_graph :
    ¬ HasSimpleCycle DiGraph.empty ∧
    check_longest_chain DiGraph.empty = ([], 0, [], false) := by
  have hWF : DiGraph.empty.WF :=
    ⟨List.nodup_nil, List.nodup_nil, fun e he => absurd he (List.not_mem_nil e)⟩
  exact ⟨(isDAG_iff_no_simpleCycle hWF).mp rfl, rfl⟩

theorem check_longest_chain_cycles_and_bounds_witness :
    ((check_longest_chain graphABC).2.2.2 = false ∧
      1 ≤ (check_longest_chain graphABC).2.1 ∧
      (check_longest_chain graphABC).2.1 ≤ graphABC.nodes.length) ∧
    (check_longest_chain graphABC).2.2.2 ≠ true := by
  have hWF : graphABC.WF := ⟨by decide, by decide, by decide⟩
  have hnc : ¬ HasSimpleCycle graphABC :=
    (isDAG_iff_no_simpleCycle hWF).mp rfl
  have h := check_longest_chain_cycles_and_bounds graphABC hWF
  refine ⟨h.2.2.2 hnc (by decide), ?_⟩
  intro hb
  exact hnc (h.1.mp hb)

/-!  ## C3 — the long-chain issue  -/

lemma pySortIssues_perm (l : List Issue) : (pySortIssues l).Perm l := by
  have h1 : ((l.enum.insertionSort issueIdxLe).map (fun p => p.2)).Perm
      (l.enum.map (fun p => p.2)) := (List.perm_insertionSort issueIdxLe l.enum).map _
  have h2 : l.enum.map (fun p => p.2) = l := List.enum_map_snd l
  rw [pySortIssues]
  rw [h2] at h1
  exact h1

lemma check_missing_code (g : DiGraph) (real : List String) :
    ∀ i ∈ check_missing_prereqs g real, i.code = "missing_prereq" := by
  intro i hi
  rcases List.mem_filterMap.mp hi with ⟨v, -, hf⟩
  by_cases hv : v ∈ real
  · simp [hv] at hf
  · simp only [hv, if_neg, not_false_iff, Option.some.injEq] at hf
    rw [← hf]

lemma check_isolated_code (g : DiGraph) (real : List String) :
    ∀ i ∈ check_isolated g real, i.code = "isolated_course" := by
  intro i hi
  rcases List.mem_filterMap.mp hi with ⟨v, -, hf⟩
  by_cases hv : v ∈ g.nodes
  · rw [if_pos hv] at hf
    by_cases hdeg : g.in_degree v = 0 ∧ g.out_degree v = 0
    · rw [if_pos hdeg] at hf
      rw [← Option.some.injEq _ _ |>.mp hf]
    · rw [if_neg hdeg] at hf
      cases hf
  · rw [if_neg hv] at hf
    cases hf

lemma check_bottlenecks_code (g : DiGraph) (real : List String) (k m : Nat) :
    ∀ i ∈ (check_bottlenecks g real k m).1, i.code = "bottleneck" := by
  intro i hi
  rcases List.mem_map.mp hi with ⟨c, -, rfl⟩
  rfl

lemma check_longest_chain_issues (g : DiGraph) :
    (check_longest_chain g).1 =
      if 6 < (check_longest_chain g).2.1 then
        [mkLongChainIssue (check_longest_chain g).2.1 (check_longest_chain g).2.2.1]
      else [] := by
  rw [check_longest_chain]
  by_cases hdag : ¬ is_directed_acyclic_graph g = true
  · rw [if_pos hdag]
    rfl
  · rw [if_neg hdag]
    cases h : dag_longest_path g with
    | error e => rfl
    | ok p =>
      show (if 6 < p.length then [mkLongChainIssue p.length p] else []) = _
      by_cases h6 : 6 < p.length
      · rw [if_pos h6]
      · rw [if_neg h6]

/-- A chain catalog of 7 courses (`A → B → ... → G`). -/
def catalogChain7 : List RawRecord :=
  [ { id := some "A", name := some "A", prerequisites := PrereqField.list [] }
  , { id := some "B", name := some "B", prerequisites := PrereqField.list ["A"] }
  , { id := some "C", name := some "C", prerequisites := PrereqField.list ["B"] }
  , { id := some "D", name := some "D", prerequisites := PrereqField.list ["C"] }
  , { id := some "E", name := some "E", prerequisites := PrereqField.list ["D"] }
  , { id := some "F", name := some "F", prerequisites := PrereqField.list ["E"] }
  , { id := some "G", name := some "G", prerequisites := PrereqField.list ["F"] } ]

/-- A configuration raising the warning threshold to 10. -/
def cfgWarn10 : Config :=
  { top_bottlenecks := none, min_bottleneck := none, long_chain_warn := some 10 }

/-- The graph built from `catalogChain7`. -/
def graphChain7 : DiGraph := (load_course_graph catalogChain7).toOption.getD DiGraph.empty

set_option maxRecDepth 8000 in
/-- **C3 (code bug).**  The claim says `analyze_catalog` emits a
`long_chain` issue exactly when the longest path exceeds the configurable
`long_chain_warn` threshold.  No configuration can ever produce the issue:
every invocation of `analyze_catalog` raises `NameError` at the graph build
(the silently failed import) and emits nothing at all — in particular with
`long_chain_warn = 10` on the 7-chain catalog no report is produced.
Behind the crash the issue logic sits in `check_longest_chain`, which takes
no configuration and hard-codes the threshold `length > 6`: on the 7-chain
graph it builds one `long_chain` issue even though 7 does not exceed the
configured 10, so the threshold would be wrong even if the pipeline were
reachable. -/
theorem analyze_catalog_never_reports_long_chain :
    (∀ (path now : String) (data : List RawRecord) (config : Config),
      analyze_catalog path data config now =
        Except.error "NameError: name build_course_graph is not defined") ∧
    analyze_catalog "p" catalogChain7 cfgWarn10 "t" =
      Except.error "NameError: name build_course_graph is not defined" ∧
    (check_longest_chain graphChain7).2.1 = 7 ∧
    (check_longest_chain graphChain7).1.map (fun i => i.code) = ["long_chain"] := by
  exact ⟨fun _ _ _ _ => rfl, rfl, rfl, rfl⟩

/-!  ## Structural invariants of the ancestor-chain traversal  -/

lemma gpc_zero (g : DiGraph) (topic : String) (visited : List String) :
    gpc g 0 topic visited = ([], visited) := rfl

lemma gpc_succ (g : DiGraph) (fuel : Nat) (topic : String) (visited : List String) :
    gpc g (fuel + 1) topic visited =
      if topic ∈ visited then ([], visited)
      else if topic ∈ g.nodes then
        (if topic ∈ (gpcFold g fuel (g.predecessors topic) (visited ++ [topic])).1 then
          gpcFold g fuel (g.predecessors topic) (visited ++ [topic])
        else
          ((gpcFold g fuel (g.predecessors topic) (visited ++ [topic])).1 ++ [topic],
            (gpcFold g fuel (g.predecessors topic) (visited ++ [topic])).2))
      else ([], visited ++ [topic]) := rfl

lemma gpcFold_nil (g : DiGraph) (fuel : Nat) (visited : List String) :
    gpcFold g fuel [] visited = ([], visited) := rfl

lemma gpcFold_cons (g : DiGraph) (fuel : Nat) (p : String) (ps : List String)
    (visited : List String) :
    gpcFold g fuel (p :: ps) visited =
      ((gpc g fuel p visited).1 ++
        (gpcFold g fuel ps (gpc g fuel p visited).2).1,
        (gpcFold g fuel ps (gpc g fuel p visited).2).2) := rfl

/-- Shape facts of one `gpc` call: the visited set grows by a duplicate-free
block of genuinely new marks, the chain consists of new marks that are graph
nodes, the chain has no duplicates, and every new mark is the topic or a
strict ancestor of it. -/
def GpcA (g : DiGraph) (topic : String) (visited : List String)
    (out : List String × List String) : Prop :=
  ∃ fresh,
    out.2 = visited ++ fresh ∧
    (∀ x ∈ fresh, x ∉ visited) ∧
    fresh.Nodup ∧
    (∀ x ∈ out.1, x ∈ fresh ∧ x ∈ g.nodes) ∧
    out.1.Nodup ∧
    (∀ x ∈ fresh, x = topic ∨ Reach g x topic)

/-- The fold-level counterpart of `GpcA`. -/
def GpcFoldA (g : DiGraph) (ps : List String) (visited : List String)
    (out : List String × List String) : Prop :=
  ∃ fresh,
    out.2 = visited ++ fresh ∧
    (∀ x ∈ fresh, x ∉ visited) ∧
    fresh.Nodup ∧
    (∀ x ∈ out.1, x ∈ fresh ∧ x ∈ g.nodes) ∧
    out.1.Nodup ∧
    (∀ x ∈ fresh, ∃ p ∈ ps, x = p ∨ Reach g x p)

lemma gpcFoldAux_A (g : DiGraph) (f : String → List String → List String × List String)
    (hf : ∀ topic visited, GpcA g topic visited (f topic visited)) :
    ∀ (ps : List String) (visited : List String),
      GpcFoldA g ps visited (gpcFoldAux f ps visited) := by
  intro ps
  induction ps with
  | nil =>
    intro visited
    exact ⟨[], by simp [gpcFoldAux], by simp, List.nodup_nil, by simp [gpcFoldAux],
      by simp [gpcFoldAux], by simp⟩
  | cons p ps ih =>
    intro visited
    rcases hf p visited with ⟨f1, hv1, hnew1, hnd1, hc1, hcnd1, hanc1⟩
    rcases ih (f p visited).2 with ⟨f2, hv2, hnew2, hnd2, hc2, hcnd2, hanc2⟩
    refine ⟨f1 ++ f2, ?_, ?_, ?_, ?_, ?_, ?_⟩
    · show (gpcFoldAux f ps (f p visited).2).2 = _
      rw [hv2, hv1, List.append_assoc]
    · intro x hx
      rcases List.mem_append.mp hx with hx1 | hx2
      · exact hnew1 x hx1
      · intro hxv
        exact hnew2 x hx2 (by rw [hv1]; exact List.mem_append_left _ hxv)
    · rw [List.nodup_append]
      refine ⟨hnd1, hnd2, ?_⟩
      intro x hx1 hx2
      exact hnew2 x hx2 (by rw [hv1]; exact List.mem_append_right _ hx1)
    · intro x hx
      show x ∈ f1 ++ f2 ∧ x ∈ g.nodes
      rcases List.mem_append.mp hx with hx1 | hx2
      · rcases hc1 x hx1 with ⟨hm, hn⟩
        exact ⟨List.mem_append_left _ hm, hn⟩
      · rcases hc2 x hx2 with ⟨hm, hn⟩
        exact ⟨List.mem_append_right _ hm, hn⟩
    · show ((f p visited).1 ++ (gpcFoldAux f ps (f p visited).2).1).Nodup
      rw [List.nodup_append]
      refine ⟨hcnd1, hcnd2, ?_⟩
      intro x hx1 hx2
      have hm1 := (hc1 x hx1).1
      have hm2 := (hc2 x hx2).1
      exact hnew2 x hm2 (by rw [hv1]; exact List.mem_append_right _ hm1)
    · intro x hx
      rcases List.mem_append.mp hx with hx1 | hx2
      · exact ⟨p, List.mem_cons_self p ps, hanc1 x hx1⟩
      · rcases hanc2 x hx2 with ⟨q, hq, hxq⟩
        exact ⟨q, List.mem_cons_of_mem p hq, hxq⟩

lemma gpc_A (g : DiGraph) :
    ∀ (fuel : Nat) (topic : String) (visited : List String),
      GpcA g topic visited (gpc g fuel topic visited) := by
  intro fuel
  induction fuel with
  | zero =>
    intro topic visited
    exact ⟨[], by simp [gpc_zero], by simp, List.nodup_nil, by simp [gpc_zero],
      by simp [gpc_zero], by simp⟩
  | succ fuel ih =>
    intro topic visited
    rw [gpc_succ]
    by_cases hvis : topic ∈ visited
    · rw [if_pos hvis]
      exact ⟨[], by simp, by simp, List.nodup_nil, by simp, by simp, by simp⟩
    · rw [if_neg hvis]
      by_cases hnode : topic ∈ g.nodes
      · rw [if_pos hnode]
        rcases gpcFoldAux_A g (gpc g fuel) ih (g.predecessors topic) (visited ++ [topic])
          with ⟨ff, hv, hnew, hnd, hc, hcnd, hanc⟩
        have htf : topic ∉ ff := fun h =>
          hnew topic h (List.mem_append_right _ (List.mem_singleton.mpr rfl))
        have htc : topic ∉ (gpcFold g fuel (g.predecessors topic) (visited ++ [topic])).1 :=
          fun h => htf (hc topic h).1
        rw [if_neg htc]
        have hanc2 : ∀ x ∈ topic :: ff, x = topic ∨ Reach g x topic := by
          intro x hx
          rcases List.mem_cons.mp hx with rfl | hxf
          · exact Or.inl rfl
          · rcases hanc x hxf with ⟨p, hp, hxp⟩
            right
            have hep : EdgeRel g p topic := mem_predecessors_edge hp
            rcases hxp with rfl | hxp
            · exact Relation.TransGen.single hep
            · exact Relation.TransGen.tail hxp hep
        refine ⟨topic :: ff, ?_, ?_, ?_, ?_, ?_, hanc2⟩
        · show (gpcFoldAux (gpc g fuel) (g.predecessors topic) (visited ++ [topic])).2 = _
          rw [hv]
          simp
        · intro x hx
          rcases List.mem_cons.mp hx with rfl | hxf
          · exact hvis
          · intro hxv
            exact hnew x hxf (List.mem_append_left _ hxv)
        · exact List.nodup_cons.mpr ⟨htf, hnd⟩
        · intro x hx
          show x ∈ topic :: ff ∧ x ∈ g.nodes
          rcases List.mem_append.mp hx with hx1 | hx2
          · rcases hc x hx1 with ⟨hm, hn⟩
            exact ⟨List.mem_cons_of_mem _ hm, hn⟩
          · rcases List.mem_singleton.mp hx2 with rfl
            exact ⟨List.mem_cons_self _ _, hnode⟩
        · show ((gpcFold g fuel (g.predecessors topic) (visited ++ [topic])).1 ++ [topic]).Nodup
          rw [List.nodup_append]
          refine ⟨hcnd, List.nodup_singleton topic, ?_⟩
          intro x hx1 hx2
          rcases List.mem_singleton.mp hx2 with rfl
          exact htc hx1
      · rw [if_neg hnode]
        refine ⟨[topic], rfl, ?_, List.nodup_singleton topic, by simp, by simp, ?_⟩
        · intro x hx
          rcases List.mem_singleton.mp hx with rfl
          exact hvis
        · intro x hx
          rcases List.mem_singleton.mp hx with rfl
          exact Or.inl rfl

/-- Enough fuel for a `gpc` call: strictly more than the number of
not-yet-visited graph nodes (each productive nesting level marks one). -/
def fuelOK (g : DiGraph) (visited : List String) (fuel : Nat) : Prop :=
  (g.nodes.filter (fun x => decide (x ∉ visited))).length < fuel

lemma fuelOK_mono {g : DiGraph} {visited visited' : List String} {fuel : Nat}
    (hsub : ∀ x ∈ visited, x ∈ visited') (h : fuelOK g visited fuel) :
    fuelOK g visited' fuel := by
  refine lt_of_le_of_lt ?_ h
  refine List.Sublist.length_le ?_
  refine List.monotone_filter_right _ ?_
  intro a ha
  simp only [decide_eq_true_iff] at ha ⊢
  intro hmem
  exact ha (hsub a hmem)

lemma fuelOK_step {g : DiGraph} {visited : List String} {fuel : Nat} {topic : String}
    (hnode : topic ∈ g.nodes) (hvis : topic ∉ visited)
    (h : fuelOK g visited (fuel + 1)) : fuelOK g (visited ++ [topic]) fuel := by
  have hdec : (g.nodes.filter (fun x => decide (x ∉ visited ++ [topic]))).length <
      (g.nodes.filter (fun x => decide (x ∉ visited))).length := by
    have hsub : List.Sublist (g.nodes.filter (fun x => decide (x ∉ visited ++ [topic])))
        (g.nodes.filter (fun x => decide (x ∉ visited))) := by
      refine List.monotone_filter_right _ ?_
      intro a ha
      simp only [decide_eq_true_iff, List.mem_append] at ha ⊢
      intro hmem
      exact ha (Or.inl hmem)
    by_cases hlen : (g.nodes.filter (fun x => decide (x ∉ visited ++ [topic]))).length =
        (g.nodes.filter (fun x => decide (x ∉ visited))).length
    · exfalso
      have heq := (List.Sublist.length_eq hsub).mp hlen
      have h1 : topic ∈ g.nodes.filter (fun x => decide (x ∉ visited)) :=
        List.mem_filter.mpr ⟨hnode, by simpa using hvis⟩
      rw [← heq] at h1
      have := List.mem_filter.mp h1
      simp at this
    · have := hsub.length_le
      omega
  unfold fuelOK at h ⊢
  omega

/-- Completeness facts of one `gpc` call under sufficient fuel: the topic is
marked; every newly marked graph node ends up on the chain; and every
predecessor of a chain element is marked by the end of the call. -/
def GpcB (g : DiGraph) (topic : String) (visited : List String)
    (out : List String × List String) : Prop :=
  topic ∈ out.2 ∧
  (∀ x, x ∈ out.2 → x ∉ visited → x ∈ g.nodes → x ∈ out.1) ∧
  (∀ x ∈ out.1, ∀ u, EdgeRel g u x → u ∈ out.2)

/-- The fold-level counterpart of `GpcB`. -/
def GpcFoldB (g : DiGraph) (ps : List String) (visited : List String)
    (out : List String × List String) : Prop :=
  (∀ p ∈ ps, p ∈ out.2) ∧
  (∀ x, x ∈ out.2 → x ∉ visited → x ∈ g.nodes → x ∈ out.1) ∧
  (∀ x ∈ out.1, ∀ u, EdgeRel g u x → u ∈ out.2)

lemma gpcFold_B (g : DiGraph) (fuel : Nat)
    (ihB : ∀ topic visited, fuelOK g visited fuel →
      GpcB g topic visited (gpc g fuel topic visited)) :
    ∀ (ps : List String) (visited : List String), fuelOK g visited fuel →
      GpcFoldB g ps visited (gpcFold g fuel ps visited) := by
  intro ps
  induction ps with
  | nil =>
    intro visited hfuel
    refine ⟨by simp, ?_, by simp [gpcFold_nil]⟩
    intro x hx hnv
    rw [gpcFold_nil] at hx
    exact absurd hx hnv
  | cons p ps ih =>
    intro visited hfuel
    rcases gpc_A g fuel p visited with ⟨f1, hv1, hnew1, -, hc1, -, -⟩
    rcases gpcFoldAux_A g (gpc g fuel) (gpc_A g fuel) ps (gpc g fuel p visited).2
      with ⟨f2, hv2, -, -, -, -, -⟩
    have hsub1 : ∀ x ∈ visited, x ∈ (gpc g fuel p visited).2 := by
      intro x hx
      rw [hv1]
      exact List.mem_append_left _ hx
    have hfuel1 : fuelOK g (gpc g fuel p visited).2 fuel := fuelOK_mono hsub1 hfuel
    have hBp := ihB p visited hfuel
    have hBfold := ih (gpc g fuel p visited).2 hfuel1
    rw [gpcFold_cons]
    have hsub2 : ∀ x ∈ (gpc g fuel p visited).2,
        x ∈ (gpcFold g fuel ps (gpc g fuel p visited).2).2 := by
      intro x hx
      show x ∈ (gpcFoldAux (gpc g fuel) ps (gpc g fuel p visited).2).2
      rw [hv2]
      exact List.mem_append_left _ hx
    refine ⟨?_, ?_, ?_⟩
    · intro q hq
      rcases List.mem_cons.mp hq with rfl | hq2
      · exact hsub2 q hBp.1
      · exact hBfold.1 q hq2
    · intro x hx hnv hnode
      by_cases hx1 : x ∈ (gpc g fuel p visited).2
      · exact List.mem_append_left _ (hBp.2.1 x hx1 hnv hnode)
      · exact List.mem_append_right _ (hBfold.2.1 x hx hx1 hnode)
    · intro x hx u hu
      rcases List.mem_append.mp hx with hx1 | hx2
      · exact hsub2 u (hBp.2.2 x hx1 u hu)
      · exact hBfold.2.2 x hx2 u hu

lemma gpc_B (g : DiGraph) :
    ∀ (fuel : Nat) (topic : String) (visited : List String),
      fuelOK g visited fuel → GpcB g topic visited (gpc g fuel topic visited) := by
  intro fuel
  induction fuel with
  | zero =>
    intro topic visited hfuel
    exact absurd hfuel (by unfold fuelOK; omega)
  | succ fuel ih =>
    intro topic visited hfuel
    rw [gpc_succ]
    by_cases hvis : topic ∈ visited
    · rw [if_pos hvis]
      refine ⟨hvis, ?_, by simp⟩
      intro x hx hnv
      exact absurd hx hnv
    · rw [if_neg hvis]
      by_cases hnode : topic ∈ g.nodes
      · rw [if_pos hnode]
        have hfuel2 : fuelOK g (visited ++ [topic]) fuel := fuelOK_step hnode hvis hfuel
        have hfoldB := gpcFold_B g fuel ih (g.predecessors topic) (visited ++ [topic]) hfuel2
        rcases gpcFoldAux_A g (gpc g fuel) (gpc_A g fuel) (g.predecessors topic)
          (visited ++ [topic]) with ⟨ff, hv, hnew, -, hc, -, -⟩
        have htf : topic ∉ ff := fun h =>
          hnew topic h (List.mem_append_right _ (List.mem_singleton.mpr rfl))
        have htc : topic ∉ (gpcFold g fuel (g.predecessors topic) (visited ++ [topic])).1 :=
          fun h => htf (hc topic h).1
        rw [if_neg htc]
        refine ⟨?_, ?_, ?_⟩
        · show topic ∈ (gpcFoldAux (gpc g fuel) (g.predecessors topic) (visited ++ [topic])).2
          rw [hv]
          exact List.mem_append_left _ (List.mem_append_right _ (List.mem_singleton.mpr rfl))
        · intro x hx hnv hxnode
          by_cases hxt : x = topic
          · subst hxt
            exact List.mem_append_right _ (List.mem_singleton.mpr rfl)
          · have hx2 : x ∉ visited ++ [topic] := by
              intro hmem
              rcases List.mem_append.mp hmem with h1 | h2
              · exact hnv h1
              · exact hxt (List.mem_singleton.mp h2)
            exact List.mem_append_left _ (hfoldB.2.1 x hx hx2 hxnode)
        · intro x hx u hu
          rcases List.mem_append.mp hx with hx1 | hx2
          · exact hfoldB.2.2 x hx1 u hu
          · rcases List.mem_singleton.mp hx2 with rfl
            exact hfoldB.1 u (edge_mem_predecessors hu)
      · rw [if_neg hnode]
        refine ⟨List.mem_append_right _ (List.mem_singleton.mpr rfl), ?_, by simp⟩
        intro x hx hnv hxnode
        rcases List.mem_append.mp hx with h1 | h2
        · exact absurd h1 hnv
        · rcases List.mem_singleton.mp h2 with rfl
          exact absurd hxnode hnode

/-!  ## Chain-order machinery  -/

/-- `u` occurs strictly before `w` in `l`. -/
def Before (u w : String) (l : List String) : Prop :=
  ∃ l₁ l₂, l = l₁ ++ u :: l₂ ∧ w ∈ l₂

lemma before_append_right {u w : String} {l : List String} (l' : List String)
    (h : Before u w l) : Before u w (l ++ l') := by
  rcases h with ⟨a, b, rfl, hw⟩
  exact ⟨a, b ++ l', by simp, List.mem_append_left _ hw⟩

lemma before_append_left {u w : String} {l : List String} (l' : List String)
    (h : Before u w l) : Before u w (l' ++ l) := by
  rcases h with ⟨a, b, rfl, hw⟩
  exact ⟨l' ++ a, b, by simp, hw⟩

lemma before_of_mem_append {u w : String} {l₁ l₂ : List String}
    (hu : u ∈ l₁) (hw : w ∈ l₂) : Before u w (l₁ ++ l₂) := by
  rcases List.append_of_mem hu with ⟨a, b, rfl⟩
  exact ⟨a, b ++ l₂, by simp, List.mem_append_right _ hw⟩

lemma cons_mid_inj {x : String} :
    ∀ (p p' q q' : List String), x ∉ p → x ∉ p' →
      p ++ x :: q = p' ++ x :: q' → p = p' ∧ q = q' := by
  intro p
  induction p with
  | nil =>
    intro p' q q' _ hx2 heq
    cases p' with
    | nil =>
      simp at heq
      exact ⟨rfl, heq⟩
    | cons b t =>
      simp at heq
      exact absurd (heq.1 ▸ List.mem_cons_self b t) hx2
  | cons a t ih =>
    intro p' q q' hx1 hx2 heq
    cases p' with
    | nil =>
      simp at heq
      exact absurd (heq.1 ▸ List.mem_cons_self a t) hx1
    | cons b t' =>
      simp only [List.cons_append, List.cons.injEq] at heq
      rcases heq with ⟨rfl, heq2⟩
      have hx1' : x ∉ t := fun h => hx1 (List.mem_cons_of_mem _ h)
      have hx2' : x ∉ t' := fun h => hx2 (List.mem_cons_of_mem _ h)
      rcases ih t' q q' hx1' hx2' heq2 with ⟨rfl, rfl⟩
      exact ⟨rfl, rfl⟩

lemma before_trans {c : List String} {u x w : String} (hnd : c.Nodup)
    (h1 : Before u x c) (h2 : Before x w c) : Before u w c := by
  rcases h1 with ⟨a, b, rfl, hx⟩
  rcases List.append_of_mem hx with ⟨b₁, b₂, rfl⟩
  rcases h2 with ⟨a', b', heq, hw⟩
  have hx1 : x ∉ a ++ u :: b₁ := by
    intro hmem
    have := List.nodup_append.mp hnd
    rcases List.mem_append.mp hmem with hma | hmb
    · exact this.2.2 hma (by simp)
    · rcases List.mem_cons.mp hmb with rfl | hmb2
      · have hnd2 := this.2.1
        rw [List.nodup_cons] at hnd2
        exact hnd2.1 (by simp)
      · have hnd2 := this.2.1
        rw [List.nodup_cons] at hnd2
        have := List.nodup_append.mp hnd2.2
        exact this.2.2 hmb2 (by simp)
  have hx2 : x ∉ a' := by
    intro hmem
    rw [heq] at hnd
    have := List.nodup_append.mp hnd
    exact this.2.2 hmem (by simp)
  have heq2 : (a ++ u :: b₁) ++ x :: b₂ = a' ++ x :: b' := by
    rw [← heq]
    simp
  rcases cons_mid_inj (a ++ u :: b₁) a' b₂ b' hx1 hx2 heq2 with ⟨-, rfl⟩
  exact ⟨a, b₁ ++ x :: b₂, by simp, List.mem_append_right _ (List.mem_cons_of_mem _ hw)⟩

lemma transGen_chain {g : DiGraph} {a b : String}
    (h : Relation.TransGen (EdgeRel g) a b) :
    ∃ mid, List.Chain' (EdgeRel g) (a :: mid ++ [b]) := by
  induction h with
  | single e => exact ⟨[], List.chain'_pair.mpr e⟩
  | tail _ e ihx =>
    rcases ihx with ⟨mid, hch⟩
    rename_i x c _
    refine ⟨mid ++ [x], ?_⟩
    have : a :: (mid ++ [x]) ++ [c] = (a :: mid ++ [x]) ++ [c] := by simp
    rw [this]
    refine List.chain'_append.mpr ⟨hch, List.chain'_singleton c, ?_⟩
    intro y hy z hz
    rw [List.getLast?_concat] at hy
    simp at hy hz
    rw [← hy, ← hz]
    exact e

lemma hasSimpleCycle_of_transGen_self {g : DiGraph} {a : String}
    (h : Relation.TransGen (EdgeRel g) a a) : HasSimpleCycle g := by
  rcases transGen_chain h with ⟨mid, hch⟩
  exact hasSimpleCycle_of_closedWalk g (a :: mid ++ [a]).length _ le_rfl
    ⟨⟨a, mid, rfl⟩, hch⟩

/-!  ## Order invariant of the traversal over acyclic graphs  -/

/-- Order fact of one `gpc` call on an acyclic graph: every predecessor of a
chain element was either already visited on entry or occurs earlier in the
chain. -/
def GpcC (g : DiGraph) (visited : List String)
    (out : List String × List String) : Prop :=
  ∀ u w, w ∈ out.1 → EdgeRel g u w → u ∈ visited ∨ Before u w out.1

lemma gpcFold_C (g : DiGraph) (hWF : g.WF) (fuel : Nat)
    (ihC : ∀ topic visited, fuelOK g visited fuel →
      GpcC g visited (gpc g fuel topic visited)) :
    ∀ (ps : List String) (visited : List String), fuelOK g visited fuel →
      GpcC g visited (gpcFold g fuel ps visited) := by
  intro ps
  induction ps with
  | nil =>
    intro visited _ u w hw
    rw [gpcFold_nil] at hw
    cases hw
  | cons p ps ih =>
    intro visited hfuel u w hw hedge
    rw [gpcFold_cons] at hw ⊢
    rcases gpc_A g fuel p visited with ⟨f1, hv1, hnew1, -, hc1, -, -⟩
    have hsub1 : ∀ x ∈ visited, x ∈ (gpc g fuel p visited).2 := by
      intro x hx
      rw [hv1]
      exact List.mem_append_left _ hx
    have hfuel1 : fuelOK g (gpc g fuel p visited).2 fuel := fuelOK_mono hsub1 hfuel
    rcases List.mem_append.mp hw with hw1 | hw2
    · rcases ihC p visited hfuel u w hw1 hedge with hv | hb
      · exact Or.inl hv
      · exact Or.inr (before_append_right _ hb)
    · rcases ih (gpc g fuel p visited).2 hfuel1 u w hw2 hedge with hv | hb
      · rw [hv1] at hv
        rcases List.mem_append.mp hv with hvv | hvf
        · exact Or.inl hvv
        · have hunode : u ∈ g.nodes := (hWF.2.2 _ hedge).1
          have hBp := gpc_B g fuel p visited hfuel
          have huin : u ∈ (gpc g fuel p visited).2 := by
            rw [hv1]
            exact List.mem_append_right _ hvf
          have huc1 : u ∈ (gpc g fuel p visited).1 :=
            hBp.2.1 u huin (hnew1 u hvf) hunode
          exact Or.inr (before_of_mem_append huc1 hw2)
      · exact Or.inr (before_append_left _ hb)

lemma gpc_C (g : DiGraph) (hWF : g.WF) (hAcyc : ¬ HasSimpleCycle g) :
    ∀ (fuel : Nat) (topic : String) (visited : List String),
      fuelOK g visited fuel → GpcC g visited (gpc g fuel topic visited) := by
  intro fuel
  induction fuel with
  | zero =>
    intro topic visited hfuel
    exact absurd hfuel (by unfold fuelOK; omega)
  | succ fuel ih =>
    intro topic visited hfuel u w hw hedge
    rw [gpc_succ] at hw ⊢
    by_cases hvis : topic ∈ visited
    · rw [if_pos hvis] at hw
      cases hw
    · rw [if_neg hvis] at hw ⊢
      by_cases hnode : topic ∈ g.nodes
      · rw [if_pos hnode] at hw ⊢
        have hfuel2 : fuelOK g (visited ++ [topic]) fuel := fuelOK_step hnode hvis hfuel
        rcases gpcFoldAux_A g (gpc g fuel) (gpc_A g fuel) (g.predecessors topic)
          (visited ++ [topic]) with ⟨ff, hv, hnew, -, hc, -, hanc⟩
        have htf : topic ∉ ff := fun h =>
          hnew topic h (List.mem_append_right _ (List.mem_singleton.mpr rfl))
        have htc : topic ∉ (gpcFold g fuel (g.predecessors topic) (visited ++ [topic])).1 :=
          fun h => htf (hc topic h).1
        rw [if_neg htc] at hw ⊢
        have hfoldB := gpcFold_B g fuel (gpc_B g fuel) (g.predecessors topic)
          (visited ++ [topic]) hfuel2
        have hfoldC := gpcFold_C g hWF fuel ih (g.predecessors topic)
          (visited ++ [topic]) hfuel2
        rcases List.mem_append.mp hw with hw1 | hw2
        · -- w is on the sub-chain of the predecessors
          rcases hfoldC u w hw1 hedge with hv2 | hb
          · rcases List.mem_append.mp hv2 with hvv | hvt
            · exact Or.inl hvv
            · -- u = topic: an edge topic → w with w an ancestor of topic is a cycle
              exfalso
              rcases List.mem_singleton.mp hvt with rfl
              have hwff : w ∈ ff := (hc w hw1).1
              rcases hanc w hwff with ⟨q, hq, hwq⟩
              have heq : EdgeRel g q u := mem_predecessors_edge hq
              have hreach : Relation.TransGen (EdgeRel g) w u := by
                rcases hwq with rfl | hr
                · exact Relation.TransGen.single heq
                · exact Relation.TransGen.tail hr heq
              exact hAcyc (hasSimpleCycle_of_transGen_self
                ((Relation.TransGen.single hedge).trans hreach))
          · exact Or.inr (before_append_right _ hb)
        · -- w = topic
          rcases List.mem_singleton.mp hw2 with rfl
          have hupred : u ∈ g.predecessors w := edge_mem_predecessors hedge
          have huin := hfoldB.1 u hupred
          rcases gpcFoldAux_A g (gpc g fuel) (gpc_A g fuel) (g.predecessors w)
            (visited ++ [w]) with ⟨ff2, hv2, hnew2, -, -, -, -⟩
          have huin2 : u ∈ (visited ++ [w]) ++ ff2 := by
            rw [← hv2]
            exact huin
          rcases List.mem_append.mp huin2 with huv | huf
          · rcases List.mem_append.mp huv with huvv | huvt
            · exact Or.inl huvv
            · exfalso
              rcases List.mem_singleton.mp huvt with rfl
              exact hAcyc (hasSimpleCycle_of_transGen_self
                (Relation.TransGen.single hedge))
          · have hunode : u ∈ g.nodes := (hWF.2.2 _ hedge).1
            have hunotv : u ∉ visited ++ [w] := hnew2 u huf
            have huc : u ∈ (gpcFold g fuel (g.predecessors w) (visited ++ [w])).1 :=
              hfoldB.2.1 u huin hunotv hunode
            exact Or.inr (before_of_mem_append huc (List.mem_singleton.mpr rfl))
      · rw [if_neg hnode] at hw
        cases hw

/-!  ## Top-level facts about get_prereq_chain  -/

lemma fuelOK_top (g : DiGraph) : fuelOK g [] (g.nodes.length + 1) := by
  unfold fuelOK
  have := List.length_filter_le (fun x => decide (x ∉ ([] : List String))) g.nodes
  omega

lemma get_prereq_chain_shape (g : DiGraph) (topic : String) (ht : topic ∈ g.nodes) :
    get_prereq_chain g topic =
      (gpcFold g g.nodes.length (g.predecessors topic) [topic]).1 ++ [topic] := by
  rw [get_prereq_chain, gpc_succ]
  rw [if_neg (List.not_mem_nil topic), if_pos ht]
  rcases gpcFoldAux_A g (gpc g g.nodes.length) (gpc_A g g.nodes.length)
    (g.predecessors topic) ([] ++ [topic]) with ⟨ff, hv, hnew, -, hc, -, -⟩
  have htf : topic ∉ ff := fun h =>
    hnew topic h (List.mem_append_right _ (List.mem_singleton.mpr rfl))
  have htc : topic ∉ (gpcFold g g.nodes.length (g.predecessors topic) ([] ++ [topic])).1 :=
    fun h => htf (hc topic h).1
  simp only [List.nil_append] at htc ⊢
  rw [if_neg htc]

lemma reach_source_mem_nodes {g : DiGraph} (hWF : g.WF) {u v : String}
    (h : Reach g u v) : u ∈ g.nodes := by
  induction h using Relation.TransGen.head_induction_on with
  | base e => exact (hWF.2.2 _ e).1
  | ih e _ _ => exact (hWF.2.2 _ e).1

/-- Every strict ancestor of a target present in the graph is visited, and —
being a graph node never visited before the top-level call — lands on the
chain. -/
lemma get_prereq_chain_complete (g : DiGraph) (hWF : g.WF) (topic : String)
    (ht : topic ∈ g.nodes) :
    ∀ u, Reach g u topic → u ∈ get_prereq_chain g topic := by
  have hB := gpc_B g (g.nodes.length + 1) topic [] (fuelOK_top g)
  have htopc : topic ∈ (gpc g (g.nodes.length + 1) topic []).1 := by
    show topic ∈ get_prereq_chain g topic
    rw [get_prereq_chain_shape g topic ht]
    exact List.mem_append_right _ (List.mem_singleton.mpr rfl)
  have hvisit : ∀ u, Reach g u topic → u ∈ (gpc g (g.nodes.length + 1) topic []).2 := by
    intro u hu
    induction hu using Relation.TransGen.head_induction_on with
    | base e => exact hB.2.2 topic htopc _ e
    | ih e _ ihx =>
      exact hB.2.2 _ (hB.2.1 _ ihx (List.not_mem_nil _) ((hWF.2.2 _ e).2)) _ e
  intro u hu
  exact hB.2.1 u (hvisit u hu) (List.not_mem_nil u) (reach_source_mem_nodes hWF hu)

lemma before_mem {u w : String} {l : List String} (h : Before u w l) :
    u ∈ l ∧ w ∈ l := by
  rcases h with ⟨a, b, rfl, hw⟩
  exact ⟨List.mem_append_right _ (List.mem_cons_self _ _),
    List.mem_append_right _ (List.mem_cons_of_mem _ hw)⟩

lemma get_prereq_chain_order (g : DiGraph) (hWF : g.WF) (hAcyc : ¬ HasSimpleCycle g)
    (topic : String) :
    ∀ u w, w ∈ get_prereq_chain g topic → Reach g u w →
      Before u w (get_prereq_chain g topic) := by
  have hCf : ∀ u w, w ∈ get_prereq_chain g topic → EdgeRel g u w →
      Before u w (get_prereq_chain g topic) := by
    intro u w hw e
    rcases gpc_C g hWF hAcyc (g.nodes.length + 1) topic [] (fuelOK_top g) u w hw e
      with h | h
    · exact absurd h (List.not_mem_nil u)
    · exact h
  have hnd : (get_prereq_chain g topic).Nodup := by
    rcases gpc_A g (g.nodes.length + 1) topic [] with ⟨-, -, -, -, -, hnd, -⟩
    exact hnd
  intro u w hw hr
  induction hr using Relation.TransGen.head_induction_on with
  | base e => exact hCf _ _ hw e
  | ih e _ ihx => exact before_trans hnd (hCf _ _ (before_mem ihx).1 e) ihx

lemma get_prereq_chain_absent (g : DiGraph) (t : String) (ht : t ∉ g.nodes) :
    get_prereq_chain g t = [] := by
  rw [get_prereq_chain, gpc_succ, if_neg (List.not_mem_nil t), if_neg ht]

/-- The diamond catalog `A→B, A→C, B→D, C→D` from the spec's traversal
example. -/
def catalogDiamond : List RawRecord :=
  [ { id := some "A", name := some "A", prerequisites := PrereqField.list [] }
  , { id := some "B", name := some "B", prerequisites := PrereqField.list ["A"] }
  , { id := some "C", name := some "C", prerequisites := PrereqField.list ["A"] }
  , { id := some "D", name := some "D", prerequisites := PrereqField.list ["B", "C"] } ]

/-- The graph built from `catalogDiamond`. -/
def graphDiamond : DiGraph := (load_course_graph catalogDiamond).toOption.getD DiGraph.empty

/-- A two-node cyclic graph (`A ⇄ B`). -/
def graphCyc : DiGraph :=
  { nodes := ["A", "B"], names := [], edges := [("A", "B"), ("B", "A")] }

/-- **C7.**  For an absent target the chain is empty; for a target present
in a cycle-free graph, the chain contains every transitive prerequisite of
the target exactly once, in prerequisites-before-dependents order (`Before`
= occurs strictly earlier), and ends with the target; over the diamond
`A→B, A→C, B→D, C→D`, the chain for `D` contains each of `A`, `B`, `C`
exactly once and ends with `D`. -/
theorem get_prereq_chain_ancestors (g : DiGraph) (topic : String) (hWF : g.WF)
    (hAcyc : ¬ HasSimpleCycle g) (ht : topic ∈ g.nodes) :
    (∀ u, Reach g u topic → (get_prereq_chain g topic).count u = 1) ∧
    (get_prereq_chain g topic).getLast? = some topic ∧
    (∀ u w, u ∈ get_prereq_chain g topic → w ∈ get_prereq_chain g topic →
      Reach g u w → Before u w (get_prereq_chain g topic)) ∧
    (∀ t2, t2 ∉ g.nodes → get_prereq_chain g t2 = []) ∧
    ((get_prereq_chain graphDiamond "D").count "A" = 1 ∧
      (get_prereq_chain graphDiamond "D").count "B" = 1 ∧
      (get_prereq_chain graphDiamond "D").count "C" = 1 ∧
      (get_prereq_chain graphDiamond "D").getLast? = some "D") := by
  have hnd : (get_prereq_chain g topic).Nodup := by
    rcases gpc_A g (g.nodes.length + 1) topic [] with ⟨-, -, -, -, -, hnd, -⟩
    exact hnd
  refine ⟨?_, ?_, ?_, fun t2 ht2 => get_prereq_chain_absent g t2 ht2, ?_⟩
  · intro u hu
    exact List.count_eq_one_of_mem hnd (get_prereq_chain_complete g hWF topic ht u hu)
  · rw [get_prereq_chain_shape g topic ht]
    exact List.getLast?_concat _
  · intro u w _ hw hr
    exact get_prereq_chain_order g hWF hAcyc topic u w hw hr
  · refine ⟨?_, ?_, ?_, ?_⟩ <;> rfl

theorem get_prereq_chain_ancestors_witness :
    graphDiamond.WF ∧ ¬ HasSimpleCycle graphDiamond ∧ "D" ∈ graphDiamond.nodes ∧
    (get_prereq_chain graphDiamond "D").getLast? = some "D" ∧
    (∀ t2, t2 ∉ graphDiamond.nodes → get_prereq_chain graphDiamond t2 = []) := by
  have hWF : graphDiamond.WF := ⟨by decide, by decide, by decide⟩
  have hAcyc : ¬ HasSimpleCycle graphDiamond :=
    (isDAG_iff_no_simpleCycle hWF).mp rfl
  have h := get_prereq_chain_ancestors graphDiamond "D" hWF hAcyc (by decide)
  exact ⟨hWF, hAcyc, by decide, h.2.1, h.2.2.2.1⟩

/-- **C10.**  For every graph (cyclic or not) and every target present in
it, the chain returned by `get_prereq_chain` (called with a fresh visited
set) is nonempty, ends with the target, contains the target exactly once,
and contains no id more than once. -/
theorem get_prereq_chain_target_occurrence (g : DiGraph) (topic : String)
    (ht : topic ∈ g.nodes) :
    get_prereq_chain g topic ≠ [] ∧
    (get_prereq_chain g topic).getLast? = some topic ∧
    (get_prereq_chain g topic).count topic = 1 ∧
    (get_prereq_chain g topic).Nodup := by
  have hnd : (get_prereq_chain g topic).Nodup := by
    rcases gpc_A g (g.nodes.length + 1) topic [] with ⟨-, -, -, -, -, hnd, -⟩
    exact hnd
  have hshape := get_prereq_chain_shape g topic ht
  have hmem : topic ∈ get_prereq_chain g topic := by
    rw [hshape]
    exact List.mem_append_right _ (List.mem_singleton.mpr rfl)
  refine ⟨?_, ?_, List.count_eq_one_of_mem hnd hmem, hnd⟩
  · rw [hshape]
    simp
  · rw [hshape]
    exact List.getLast?_concat _

theorem get_prereq_chain_target_occurrence_witness :
    "A" ∈ graphCyc.nodes ∧
    (get_prereq_chain graphCyc "A" ≠ [] ∧
      (get_prereq_chain graphCyc "A").getLast? = some "A" ∧
      (get_prereq_chain graphCyc "A").count "A" = 1 ∧
      (get_prereq_chain graphCyc "A").Nodup) :=
  ⟨by decide, get_prereq_chain_target_occurrence graphCyc "A" (by decide)⟩

/-!  ## Fuel-independence (termination) of the traversal  -/

lemma gpc_stable_aux (g : DiGraph) :
    ∀ (fuel₁ fuel₂ : Nat) (topic : String) (visited : List String),
      fuelOK g visited fuel₁ → fuelOK g visited fuel₂ →
      gpc g fuel₁ topic visited = gpc g fuel₂ topic visited := by
  intro fuel₁
  induction fuel₁ with
  | zero =>
    intro fuel₂ topic visited h₁ _
    exact absurd h₁ (by unfold fuelOK; omega)
  | succ fuel₁ ih =>
    intro fuel₂ topic visited h₁ h₂
    cases fuel₂ with
    | zero => exact absurd h₂ (by unfold fuelOK; omega)
    | succ fuel₂ =>
      rw [gpc_succ, gpc_succ]
      by_cases hvis : topic ∈ visited
      · rw [if_pos hvis, if_pos hvis]
      · rw [if_neg hvis, if_neg hvis]
        by_cases hnode : topic ∈ g.nodes
        · rw [if_pos hnode, if_pos hnode]
          have hfold : ∀ (ps : List String) (v : List String),
              fuelOK g v fuel₁ → fuelOK g v fuel₂ →
              gpcFold g fuel₁ ps v = gpcFold g fuel₂ ps v := by
            intro ps
            induction ps with
            | nil => intro v _ _; rfl
            | cons p ps ihp =>
              intro v hv₁ hv₂
              have he := ih fuel₂ p v hv₁ hv₂
              rw [gpcFold_cons, gpcFold_cons, he]
              rcases gpc_A g fuel₂ p v with ⟨f1, hvv, -, -, -, -, -⟩
              have hsub : ∀ x ∈ v, x ∈ (gpc g fuel₂ p v).2 := by
                intro x hx
                rw [hvv]
                exact List.mem_append_left _ hx
              rw [ihp (gpc g fuel₂ p v).2 (fuelOK_mono hsub hv₁) (fuelOK_mono hsub hv₂)]
          have h₁' := fuelOK_step hnode hvis h₁
          have h₂' := fuelOK_step hnode hvis h₂
          rw [hfold (g.predecessors topic) (visited ++ [topic]) h₁' h₂']
        · rw [if_neg hnode, if_neg hnode]

/-- **C9.**  `get_prereq_chain` terminates on every finite graph (cyclic or
not): the result of a `gpc` call is independent of the fuel as soon as the
fuel exceeds the number of unvisited nodes — the shared visited set is what
bounds the recursion depth, since no node is ever expanded twice — and the
public entry point's fixed fuel `g.nodes.length + 1` always suffices. -/
theorem gpc_fuel_stable (g : DiGraph) (fuel₁ fuel₂ : Nat) (topic : String)
    (visited : List String) (h₁ : fuelOK g visited fuel₁) (h₂ : fuelOK g visited fuel₂) :
    gpc g fuel₁ topic visited = gpc g fuel₂ topic visited ∧
    (∀ fuel, fuelOK g [] fuel → (gpc g fuel topic []).1 = get_prereq_chain g topic) := by
  refine ⟨gpc_stable_aux g fuel₁ fuel₂ topic visited h₁ h₂, ?_⟩
  intro fuel hfuel
  rw [get_prereq_chain, gpc_stable_aux g fuel (g.nodes.length + 1) topic []
    hfuel (fuelOK_top g)]

theorem gpc_fuel_stable_witness :
    fuelOK graphCyc [] 3 ∧ fuelOK graphCyc [] 57 ∧
    gpc graphCyc 3 "A" [] = gpc graphCyc 57 "A" [] := by
  have h₁ : fuelOK graphCyc [] 3 := by
    unfold fuelOK
    decide
  have h₂ : fuelOK graphCyc [] 57 := by
    unfold fuelOK
    decide
  exact ⟨h₁, h₂, (gpc_fuel_stable graphCyc 3 57 "A" [] h₁ h₂).1⟩
